import Mathlib

/-!
Shallow embedding of the ligeia waveform storage-and-query engine
(repository lachlansneff/ligeia) and proofs about it.

Machine bytes are modelled as `Nat` values (`< 256` where a source
operation depends on it), byte stores as `List Nat`, and fallible or
panicking source operations as `Option`-valued functions.
-/

namespace Ligeia

/-- Rust helper `align_down(addr, align)` from `ligeia-core/src/waves/change.rs`:
for a power-of-two `align`, `addr & !(align - 1)`, i.e. the greatest multiple of
`align` that is `≤ addr`. -/
def alignDown (addr align : Nat) : Nat := addr - addr % align

/-- Rust helper `align_up(addr, align)`: smallest multiple of `align` `≥ addr`. -/
def alignUp (addr align : Nat) : Nat := alignDown (addr + align - 1) align

/-- Structural-recursion helper for `trailingOnes`; the fuel only has to be at
least the bit length of `n`, and `n` itself always is. -/
def trailingOnesAux : Nat → Nat → Nat
  | 0, _ => 0
  | fuel + 1, n => if n % 2 = 1 then trailingOnesAux fuel (n / 2) + 1 else 0

/-- Rust `usize::trailing_ones` (count of consecutive one bits starting at bit 0). -/
def trailingOnes (n : Nat) : Nat := trailingOnesAux n n

/-- Little-endian byte encoding of `n` into `k` bytes (Rust `to_le_bytes`, truncating). -/
def toLE : (k : Nat) → (n : Nat) → List Nat
  | 0, _ => []
  | k + 1, n => n % 256 :: toLE k (n / 256)

/-- Little-endian byte decoding (Rust `from_le_bytes`). Bytes are assumed `< 256`. -/
def fromLE : List Nat → Nat
  | [] => 0
  | b :: rest => b + 256 * fromLE rest

/-- Read `len` bytes of `data` starting at byte offset `off`. -/
def readBytes (data : List Nat) (off len : Nat) : List Nat :=
  (data.drop off).take len

/-- Overwrite the bytes of `data` at offsets `[off, off + bs.length)` with `bs`. -/
def writeBytes (data : List Nat) (off : Nat) (bs : List Nat) : List Nat :=
  data.take off ++ bs ++ data.drop (off + bs.length)

/-- Read a `k`-byte little-endian unsigned integer at offset `off`. -/
def readLE (data : List Nat) (off k : Nat) : Nat :=
  fromLE (readBytes data off k)

end Ligeia

namespace MmapAlloc

/-!
Embedding of `src/mmap_alloc.rs` (the `MmappableAllocator`).  The process-wide
atomic `ALLOCATED_SIZE` and the lazily-initialised `INITIAL_MEM_INFO` are
passed explicitly; the decision logic of `should_mmap` and `allocate` is
translated verbatim.
-/

/-- The part of `sys_info::MemInfo` that `should_mmap` consults: available
memory at process start. -/
structure MemInfo where
  avail : Nat
deriving DecidableEq

/-- Rust `std::alloc::Layout`: a size and an alignment. -/
structure MLayout where
  size : Nat
  align : Nat
deriving DecidableEq

/-- Rust `Layout::pad_to_align`: round the size up to a multiple of the alignment. -/
def padToAlign (l : MLayout) : MLayout :=
  { l with size := Ligeia.alignUp l.size l.align }

/-- Rust `should_mmap(size)` from `src/mmap_alloc.rs` lines 79-86:
`INITIAL_MEM_INFO.as_ref().map(|info| size >= 20_000_000 && info.avail <= ALLOCATED_SIZE * 2) == Some(true)`. -/
def should_mmap (memInfo : Option MemInfo) (allocatedSize : Nat) (size : Nat) : Bool :=
  (memInfo.map fun info =>
    decide (20000000 ≤ size) && decide (info.avail ≤ allocatedSize * 2)) = some true

/-- Which backing a call to `MmappableAllocator::allocate` chooses. -/
inductive AllocPath
  | mmapFile
  | heap
deriving DecidableEq

/-- Rust `MmappableAllocator::allocate` (lines 89-103), reduced to the choice of
backing: pad the layout, then mmap an anonymous temporary file iff
`should_mmap(layout.size())`, otherwise allocate from the global heap. -/
def allocate (memInfo : Option MemInfo) (allocatedSize : Nat) (layout : MLayout) : AllocPath :=
  let layout := padToAlign layout
  if should_mmap memInfo allocatedSize layout.size then .mmapFile else .heap

end MmapAlloc

namespace Core2Mix

/-!
Embedding of the `Mix` implementations of `Max` from `src/core2/src/lib.rs`
lines 156-170.  A `Bit` chunk packs 8 one-bit units into a byte, a `Qit` chunk
packs 4 two-bit units.  `assert!` is modelled by an `Option` result.
-/

/-- Rust `<Max as Mix<Bit>>::mix_partial(lhs, rhs, count)`:
`assert!(count <= 8); cmp::max(lhs, rhs)`. -/
def maxMixPartialBit (lhs rhs count : Nat) : Option Nat :=
  if count ≤ 8 then some (max lhs rhs) else none

/-- Rust `<Max as Mix<Qit>>::mix_partial(lhs, rhs, count)`:
`assert!(count <= 4); cmp::max(lhs, rhs)`. -/
def maxMixPartialQit (lhs rhs count : Nat) : Option Nat :=
  if count ≤ 4 then some (max lhs rhs) else none

/-- Modelled from the spec: the elementwise lift of the per-unit max over a
packed `Bit` chunk, with the tail units beyond `count` masked off.  The
per-unit max of two one-bit units is their bitwise or. -/
def specMixBitElementwise (lhs rhs count : Nat) : Nat :=
  (lhs ||| rhs) % 2 ^ count

end Core2Mix

namespace LLogic

/-!
Embedding of the logic units of `src/ligeia-core/src/logic.rs`.  A packed byte
array is a `List Nat` of bytes; `get_unit`/`set_unit` translate the pointer
arithmetic of the source into index arithmetic on the list.  Rust's
`!(mask << off)` on a `u8` is written `255 ^^^ (mask <<< off)`, which agrees
with it whenever the shifted mask stays inside the byte (as it does at every
call site, since the bit offset is reduced modulo the units-per-byte count).
-/

/-- Two-valued logic unit (`logic::Two`). -/
inductive Two
  | Zero
  | One
deriving DecidableEq

def Two.toNat : Two → Nat
  | .Zero => 0
  | .One => 1

/-- Rust `mem::transmute` of a value already masked to one bit. -/
def Two.ofBits (n : Nat) : Two :=
  if n = 1 then .One else .Zero

/-- Rust `Two::get_unit` (lines 202-206): read bit `offset % 8` of byte `offset / 8`. -/
def Two.get_unit (b : List Nat) (offset : Nat) : Two :=
  let offset_bytes := offset / 8
  let offset_bits := offset % 8
  Two.ofBits ((b.getD offset_bytes 0 >>> offset_bits) &&& 1)

/-- Rust `Two::set_unit` (lines 208-215): clear and rewrite bit `offset % 8` of
byte `offset / 8`. -/
def Two.set_unit (b : List Nat) (offset : Nat) (u : Two) : List Nat :=
  let offset_bytes := offset / 8
  let offset_bits := offset % 8
  let c := b.getD offset_bytes 0
  b.set offset_bytes ((c &&& (255 ^^^ (1 <<< offset_bits))) ||| (u.toNat <<< offset_bits))

/-- Four-valued logic unit (`logic::Four`). -/
inductive Four
  | Zero
  | One
  | Unknown
  | HighImpedance
deriving DecidableEq

def Four.toNat : Four → Nat
  | .Zero => 0
  | .One => 1
  | .Unknown => 2
  | .HighImpedance => 3

/-- Rust `mem::transmute` of a value already masked to two bits. -/
def Four.ofBits (n : Nat) : Four :=
  if n = 1 then .One else if n = 2 then .Unknown else if n = 3 then .HighImpedance else .Zero

/-- Rust `Four::get_unit` (lines 238-242): read the 2-bit field at bit
`(offset % 4) * 2` of byte `offset / 4`. -/
def Four.get_unit (b : List Nat) (offset : Nat) : Four :=
  let offset_byte := offset / 4
  let offset_bits := (offset % 4) * 2
  Four.ofBits ((b.getD offset_byte 0 >>> offset_bits) &&& 3)

/-- Rust `Four::set_unit` (lines 244-251). -/
def Four.set_unit (b : List Nat) (offset : Nat) (u : Four) : List Nat :=
  let offset_byte := offset / 4
  let offset_bits := (offset % 4) * 2
  let c := b.getD offset_byte 0
  b.set offset_byte ((c &&& (255 ^^^ (3 <<< offset_bits))) ||| (u.toNat <<< offset_bits))

/-- Nine-valued logic unit (`logic::Nine`): discriminants 0 through 8. -/
inductive Nine
  | ZeroStrong
  | OneStrong
  | ZeroWeak
  | OneWeak
  | UnknownStrong
  | UnknownWeak
  | ZeroUnknown
  | OneUnknown
  | HighImpedance
deriving DecidableEq

def Nine.toNat : Nine → Nat
  | .ZeroStrong => 0
  | .OneStrong => 1
  | .ZeroWeak => 2
  | .OneWeak => 3
  | .UnknownStrong => 4
  | .UnknownWeak => 5
  | .ZeroUnknown => 6
  | .OneUnknown => 7
  | .HighImpedance => 8

/-- Rust `mem::transmute` of a 4-bit pattern into `Nine`.  The enum has only
nine variants, so the bit-patterns `9..=15` have no valid image: the transmute
in the source is undefined behaviour there, modelled as `none`. -/
def Nine.ofNat? : Nat → Option Nine
  | 0 => some .ZeroStrong
  | 1 => some .OneStrong
  | 2 => some .ZeroWeak
  | 3 => some .OneWeak
  | 4 => some .UnknownStrong
  | 5 => some .UnknownWeak
  | 6 => some .ZeroUnknown
  | 7 => some .OneUnknown
  | 8 => some .HighImpedance
  | _ => none

/-- Rust `Nine::get_unit` (lines 292-296): `transmute((b >> bits) & 0b1111)` —
note there is no clamping of the patterns `9..=15`. -/
def Nine.get_unit (b : List Nat) (offset : Nat) : Option Nine :=
  let offset_bytes := offset / 2
  let offset_bits := (offset % 2) * 4
  Nine.ofNat? ((b.getD offset_bytes 0 >>> offset_bits) &&& 15)

/-- Rust `Nine::set_unit` (lines 298-305). -/
def Nine.set_unit (b : List Nat) (offset : Nat) (u : Nine) : List Nat :=
  let offset_bytes := offset / 2
  let offset_bits := (offset % 2) * 4
  let c := b.getD offset_bytes 0
  b.set offset_bytes ((c &&& (255 ^^^ (15 <<< offset_bits))) ||| (u.toNat <<< offset_bits))

end LLogic

namespace C2U

/-!
Embedding of the logic units of `src/core2/src/unit.rs`.  These differ from
`ligeia-core/src/logic.rs` in two load-bearing ways that are preserved
verbatim here:

* the bit offset is `offset % PER_CHUNK`, never multiplied by the number of
  bits per unit (compare `FourLogic::set_unit` line 120-126 with the
  commented-out `into_chunk` in the same file, which uses fields at bits
  0, 2, 4, 6);
* in each `get_unit` the mask expression is `chunk & (mask << off) >> off`,
  which by Rust precedence is `chunk & ((mask << off) >> off)` —
  i.e. `chunk & mask`, ignoring the offset entirely.
-/

/-- `core2` two-valued unit (`unit::TwoLogic`). -/
inductive TwoLogic
  | Zero
  | One
deriving DecidableEq

def TwoLogic.toNat : TwoLogic → Nat
  | .Zero => 0
  | .One => 1

def TwoLogic.ofBits (n : Nat) : TwoLogic :=
  if n = 1 then .One else .Zero

/-- Rust `TwoLogic::get_unit` (`core2/src/unit.rs` lines 75-81):
`transmute(chunks.add(oc).read() & (1 << ob) >> ob)`. -/
def TwoLogic.get_unit (chunks : List Nat) (offset : Nat) : TwoLogic :=
  let offset_chunks := offset / 8
  let offset_bits := offset % 8
  TwoLogic.ofBits (chunks.getD offset_chunks 0 &&& ((1 <<< offset_bits) >>> offset_bits))

/-- Rust `TwoLogic::set_unit` (lines 83-90). -/
def TwoLogic.set_unit (chunks : List Nat) (offset : Nat) (u : TwoLogic) : List Nat :=
  let offset_chunks := offset / 8
  let offset_bits := offset % 8
  let c := chunks.getD offset_chunks 0
  chunks.set offset_chunks ((c &&& (255 ^^^ (1 <<< offset_bits))) ||| (u.toNat <<< offset_bits))

/-- `core2` four-valued unit (`unit::FourLogic`). -/
inductive FourLogic
  | Zero
  | One
  | Unknown
  | HighImpedance
deriving DecidableEq

def FourLogic.toNat : FourLogic → Nat
  | .Zero => 0
  | .One => 1
  | .Unknown => 2
  | .HighImpedance => 3

def FourLogic.ofBits (n : Nat) : FourLogic :=
  if n = 1 then .One else if n = 2 then .Unknown else if n = 3 then .HighImpedance else .Zero

/-- Rust `FourLogic::get_unit` (lines 111-117): offset is `offset % 4` (not
doubled), and the mask expression reduces to `chunk & 0b11`. -/
def FourLogic.get_unit (chunks : List Nat) (offset : Nat) : FourLogic :=
  let offset_chunks := offset / 4
  let offset_bits := offset % 4
  FourLogic.ofBits (chunks.getD offset_chunks 0 &&& ((3 <<< offset_bits) >>> offset_bits))

/-- Rust `FourLogic::set_unit` (lines 119-126): the 2-bit field is written at
bit `offset % 4`, so fields of adjacent offsets overlap. -/
def FourLogic.set_unit (chunks : List Nat) (offset : Nat) (u : FourLogic) : List Nat :=
  let offset_chunks := offset / 4
  let offset_bits := offset % 4
  let c := chunks.getD offset_chunks 0
  chunks.set offset_chunks ((c &&& (255 ^^^ (3 <<< offset_bits))) ||| (u.toNat <<< offset_bits))

/-- `core2` nine-valued unit (`unit::NineLogic`): discriminants 0 through 8. -/
inductive NineLogic
  | ZeroStrong
  | OneStrong
  | ZeroWeak
  | OneWeak
  | UnknownStrong
  | UnknownWeak
  | ZeroUnknown
  | OneUnknown
  | HighImpedance
deriving DecidableEq

def NineLogic.toNat : NineLogic → Nat
  | .ZeroStrong => 0
  | .OneStrong => 1
  | .ZeroWeak => 2
  | .OneWeak => 3
  | .UnknownStrong => 4
  | .UnknownWeak => 5
  | .ZeroUnknown => 6
  | .OneUnknown => 7
  | .HighImpedance => 8

def NineLogic.ofNat? : Nat → Option NineLogic
  | 0 => some .ZeroStrong
  | 1 => some .OneStrong
  | 2 => some .ZeroWeak
  | 3 => some .OneWeak
  | 4 => some .UnknownStrong
  | 5 => some .UnknownWeak
  | 6 => some .ZeroUnknown
  | 7 => some .OneUnknown
  | 8 => some .HighImpedance
  | _ => none

/-- Rust `NineLogic::get_unit` (lines 187-193):
`transmute((chunk & (0b1111 << ob) >> ob).clamp(0, HighImpedance as u8))` —
the read nibble is clamped to at most 8, so the transmute always succeeds. -/
def NineLogic.get_unit (chunks : List Nat) (offset : Nat) : Option NineLogic :=
  let offset_chunks := offset / 2
  let offset_bits := offset % 2
  NineLogic.ofNat?
    (min (chunks.getD offset_chunks 0 &&& ((15 <<< offset_bits) >>> offset_bits)) 8)

/-- Rust `NineLogic::set_unit` (lines 195-202). -/
def NineLogic.set_unit (chunks : List Nat) (offset : Nat) (u : NineLogic) : List Nat :=
  let offset_chunks := offset / 2
  let offset_bits := offset % 2
  let c := chunks.getD offset_chunks 0
  chunks.set offset_chunks ((c &&& (255 ^^^ (15 <<< offset_bits))) ||| (u.toNat <<< offset_bits))

end C2U

namespace IForest

/-!
Embedding of `src/ligeia-core/src/implicit_forest.rs`.

`ImplicitForest` keeps `vals : Vec<ChangeOffset>`; the change data itself
lives in a `ChangeBlockList` and is reached through the stored offsets, and
`C::combine` mutates the bytes behind the left offset in place.  The change
store is modelled as a `List (Nat × List Nat)` of records — a `Timesteps`
header paired with the packed data bytes — and a `ChangeOffset` as an index
into that list.  The aggregation policy is a parameter
`combineFn : (header, data) → (header, data) → data`, returning the bytes
written through the left-hand (mutable) slice; `C::combine` receives the
`Timesteps` headers by value and therefore can never write a header.
The width bookkeeping (`self.width`, `assert_eq!(combined.width(), self.width)`)
is invariant across all operations and is left implicit in the record data.
-/

/-- The store view used by `ChangeBlockList::get_change` from the forest:
record (header, data bytes) at a change offset. -/
def getChange (st : List (Nat × List Nat)) (off : Nat) : Nat × List Nat :=
  st.getD off (0, [])

/-- One `get_two_changes` + `C::combine(lhs, rhs)` step: rewrite the data
bytes behind offset `lhsOff` with the combination of the two records. -/
def combineAt (combineFn : Nat × List Nat → Nat × List Nat → List Nat)
    (st : List (Nat × List Nat)) (lhsOff rhsOff : Nat) : List (Nat × List Nat) :=
  st.set lhsOff ((getChange st lhsOff).1, combineFn (getChange st lhsOff) (getChange st rhsOff))

/-- The `for level in 0..levels_to_index` loop of `ImplicitForest::push`
(lines 35-49), with `remaining` counting the levels still to fold. -/
def pushFolds (combineFn : Nat × List Nat → Nat × List Nat → List Nat) (vals : List Nat) :
    Nat → Nat → Nat → List (Nat × List Nat) → List (Nat × List Nat)
  | _, _, 0, st => st
  | current, level, remaining + 1, st =>
      let prev_higher_level := current - (1 <<< level)
      let st := combineAt combineFn st (vals.getD prev_higher_level 0) (vals.getD current 0)
      pushFolds combineFn vals prev_higher_level (level + 1) remaining st

/-- Rust `ImplicitForest::push` (lines 24-52).  Appends `offset` to `vals`,
folds the levels indicated by `trailing_ones(len)`, then appends
`vals[len - (1 << levels_to_index)]` — note that this duplicates the
`ChangeOffset` (a `Copy` index), not the record it points to. -/
def push (combineFn : Nat × List Nat → Nat × List Nat → List Nat)
    (st : List (Nat × List Nat)) (vals : List Nat) (offset : Nat) :
    List (Nat × List Nat) × List Nat :=
  let vals := vals ++ [offset]
  let len := vals.length
  let levels_to_index := Ligeia.trailingOnes len - 1
  let st := pushFolds combineFn vals (len - 1) 0 levels_to_index st
  (st, vals ++ [vals.getD (len - (1 <<< levels_to_index)) 0])

/-- Fold `push` over a sequence of leaf offsets. -/
def pushAll (combineFn : Nat × List Nat → Nat × List Nat → List Nat)
    (stVals : List (Nat × List Nat) × List Nat) (offsets : List Nat) :
    List (Nat × List Nat) × List Nat :=
  offsets.foldl (fun p off => push combineFn p.1 p.2 off) stVals

/-- The indices of `vals` read by the aggregation loop of `push`, mirroring
the `prev_higher_level`/`current` recurrence of `pushFolds`. -/
def pushFoldsTouched : Nat → Nat → Nat → List Nat
  | _, _, 0 => []
  | current, level, remaining + 1 =>
      let prev_higher_level := current - (1 <<< level)
      prev_higher_level :: current ::
        pushFoldsTouched prev_higher_level (level + 1) remaining

/-- All `vals` indices a `push` touches once the new leaf is in place and
`vals.len() = len`: the loop reads plus the final `vals[len - (1 << k)]`. -/
def pushTouched (len : Nat) : List Nat :=
  let levels_to_index := Ligeia.trailingOnes len - 1
  pushFoldsTouched (len - 1) 0 levels_to_index ++ [len - (1 <<< levels_to_index)]

/-- Rust `lsp(x) = x & x.wrapping_neg()` on a 64-bit `usize`. -/
def lsp (x : Nat) : Nat := x &&& ((2 ^ 64 - x % 2 ^ 64) % 2 ^ 64)

/-- Structural-recursion base-2 logarithm (`Nat.log2` is defined by
well-founded recursion and does not reduce in the kernel); the fuel only has
to dominate the bit length, and `n` itself always does. -/
def nlog2Aux : Nat → Nat → Nat
  | 0, _ => 0
  | fuel + 1, n => if 2 ≤ n then nlog2Aux fuel (n / 2) + 1 else 0

/-- Base-2 logarithm of a positive number (0 at 0), kernel-reducible. -/
def nlog2 (n : Nat) : Nat := nlog2Aux n n

/-- Rust `usize::leading_zeros` for a 64-bit `usize`. -/
def leadingZeros64 (x : Nat) : Nat := if x = 0 then 64 else 63 - nlog2 x

/-- Rust `msp(x) = 1usize.reverse_bits() >> x.leading_zeros()`. -/
def msp (x : Nat) : Nat := (1 <<< 63) >>> leadingZeros64 x

/-- Rust `largest_prefix_inside_skip(min, max) = lsp(min | msp(max - min))`. -/
def largest_prefix_inside_skip (mn mx : Nat) : Nat := lsp (mn ||| msp (mx - mn))

/-- Rust `agg_node(i, offset) = i + (offset >> 1) - 1`. -/
def agg_node (i offset : Nat) : Nat := i + (offset >>> 1) - 1

/-- The `while ri.start < ri.end` loop of `range_query` (lines 85-100).
`fuel` bounds the number of iterations; each genuine iteration advances
`start` by `skip ≥ 1`, so `fuel = stop - start` always suffices and running
out of fuel (only conceivable on inputs unrepresentable as `usize`) is
reported as `none` like a panic. -/
def queryLoop (combineFn : Nat × List Nat → Nat × List Nat → List Nat)
    (st : List (Nat × List Nat)) (vals : List Nat) :
    Nat → Nat → Nat → Option Nat → List Nat → Option (Option Nat × List Nat)
  | 0, start, stop, combinedHeader, combined =>
      if start < stop then none else some (combinedHeader, combined)
  | fuel + 1, start, stop, combinedHeader, combined =>
      if start < stop then
        let skip := largest_prefix_inside_skip start stop
        let rhs := getChange st (vals.getD (agg_node start skip) 0)
        let newHeader := combinedHeader.getD rhs.1
        let combined := combineFn (newHeader, combined) (rhs.1, rhs.2)
        queryLoop combineFn st vals fuel (start + skip) stop (some newHeader) combined
      else some (combinedHeader, combined)

/-- Rust `ImplicitForest::range_query` (lines 54-103).  Scales the leaf range
to physical indices, checks the bounds assertion, runs the skip loop on the
caller's accumulator `combined`, and finally `combined_header.unwrap()`:
`none` models the panic (failed assertion or unwrap of `None`). -/
def range_query (combineFn : Nat × List Nat → Nat × List Nat → List Nat)
    (st : List (Nat × List Nat)) (vals : List Nat) (a b : Nat) (combined : List Nat) :
    Option (Nat × List Nat) :=
  let riStart := a * 2
  let riEnd := b * 2
  let len := vals.length
  if riStart ≤ len ∧ riEnd ≤ len then
    match queryLoop combineFn st vals (riEnd - riStart) riStart riEnd none combined with
    | some (some h, combined) => some (h, combined)
    | _ => none
  else none

/-- Modelled from the spec: the reference `max` aggregator (spec §4.4 and §8,
scenario 1).  `ligeia-core` declares the `Combine` trait but no instance, so
the reference aggregator follows the spec's words: the packed bytes combine
by elementwise max, the `Timesteps` headers are untouched (they are passed to
`combine` by value). -/
def maxCombine (lhs rhs : Nat × List Nat) : List Nat :=
  List.zipWith max lhs.2 rhs.2

/-- Modelled from the spec: the naive reference left fold of
`Aggregator.combine` over a leaf span, against which `range_query` is
compared.  For a nonempty span the fold starts from the first leaf; the
header stays that of the first leaf because `combine` receives headers by
value. -/
def specNaiveFold (combineFn : Nat × List Nat → Nat × List Nat → List Nat)
    (leaves : List (Nat × List Nat)) : Option (Nat × List Nat) :=
  match leaves with
  | [] => none
  | l :: ls => some (ls.foldl (fun acc r => (acc.1, combineFn acc r)) l)

end IForest

namespace LChange

/-!
Byte-level embedding of `src/ligeia-core/src/waves/change.rs`.

`BlockHeader` is `{ delta_next : Option<NonZeroUsize>, len : usize }`:
16 bytes, alignment 8, serialized little-endian with `delta_next = 0`
representing `None` (the `NonZeroUsize` niche).  `Timesteps` is a `u64`
newtype, modelled by a plain `Nat` value.  The backing vector is a
`List Nat` of bytes.  Panicking operations (`unwrap`, `expect`, slice
indexing) are modelled with `Option`; the `usize → u32` conversion in
`push_timesteps` is total here, with the `< 2^32` bound carried by the
theorems that read indices back.
-/

def CHANGES_PER_BLOCK : Nat := 128

/-- Serialized `BlockHeader`: 8 bytes `delta_next` (0 = `None`), 8 bytes `len`. -/
def headerBytes (delta_next len : Nat) : List Nat :=
  Ligeia.toLE 8 delta_next ++ Ligeia.toLE 8 len

structure StorageInfo where
  first_offset : Nat
  last_offset : Nat
  bytes_per_change : Nat
  width : Nat
  count : Nat
deriving DecidableEq

structure ChangeBlockList where
  data : List Nat
  storage_infos : List (Option StorageInfo)
  timesteps : List Nat
  current_timestep_index : Nat
deriving DecidableEq

/-- Rust `ChangeBlockList::new_in`. -/
def new_in : ChangeBlockList := ⟨[], [], [], 0⟩

/-- Rust `ChangeBlockList::add_storage::<L>` (lines 67-105); `PER_BYTE` is the
`L::PER_BYTE` of the logic type the storage is declared with. -/
def add_storage (s : ChangeBlockList) (storage_id PER_BYTE width : Nat) : ChangeBlockList :=
  let infos := if s.storage_infos.length ≤ storage_id
    then s.storage_infos ++ List.replicate (storage_id + 1 - s.storage_infos.length) none
    else s.storage_infos
  let bytes_per_change := 4 + (width + PER_BYTE - 1) / PER_BYTE
  let aligned_len := Ligeia.alignUp s.data.length 8
  let data := s.data ++ List.replicate (aligned_len - s.data.length) 0
  let current_offset := data.length
  let data := data ++ headerBytes 0 0
  let data := data ++ List.replicate (bytes_per_change * CHANGES_PER_BLOCK) 0
  { s with
    data,
    storage_infos := infos.set storage_id
      (some ⟨current_offset, current_offset, bytes_per_change, width, 0⟩) }

/-- Rust `ChangeBlockList::push_timesteps` (lines 107-110): unconditionally
record the next index and append. -/
def push_timesteps (s : ChangeBlockList) (ts : Nat) : ChangeBlockList :=
  { s with
    current_timestep_index := s.timesteps.length,
    timesteps := s.timesteps ++ [ts] }

/-- The byte-store effect of `push_get` when the current block still has a
free slot (`headerLen < CHANGES_PER_BLOCK`): write the `u32` timestep index
into the next record slot, bump the block's `len`, and let the caller fill
the packed bytes. -/
def pushDataNonFull (data : List Nat) (last_offset bpc headerLen cur : Nat)
    (payload : List Nat) : List Nat :=
  let change_offset := last_offset + 16 + headerLen * bpc
  let data := Ligeia.writeBytes data change_offset (Ligeia.toLE 4 cur)
  let data := Ligeia.writeBytes data (last_offset + 8) (Ligeia.toLE 8 (headerLen + 1))
  Ligeia.writeBytes data (change_offset + 4) payload

/-- The byte-store effect of `push_get` when the current block is full:
patch its `delta_next`, pad to header alignment, append a fresh block, write
the timestep index into its first slot, set its `len` to 1, and let the
caller fill the packed bytes. -/
def pushDataFull (data : List Nat) (last_offset bpc cur : Nat) (payload : List Nat) :
    List Nat :=
  let current_offset := data.length
  let aligned_len := Ligeia.alignUp current_offset 8
  let data := Ligeia.writeBytes data last_offset
    (Ligeia.toLE 8 (aligned_len - last_offset))
  let data := data ++ List.replicate (aligned_len - data.length) 0
  let data := data ++ headerBytes 0 0
  let data := data ++ List.replicate (bpc * CHANGES_PER_BLOCK) 0
  let change_offset := aligned_len + 16
  let data := Ligeia.writeBytes data change_offset (Ligeia.toLE 4 cur)
  let data := Ligeia.writeBytes data (aligned_len + 8) (Ligeia.toLE 8 1)
  Ligeia.writeBytes data (change_offset + 4) payload

/-- Rust `ChangeBlockList::push_get` (lines 112-170) followed by the caller
filling the returned `LogicSliceMut` with `payload` (the packed bytes of the
record, `bytes_per_change - 4` of them).  `none` models the `unwrap` panic on
an undeclared storage.  The byte-store pipeline of each branch is the
corresponding `pushData…` helper above; note the source records
`current_offset` (not `aligned_len`) as the new `last_offset`. -/
def push_change (s : ChangeBlockList) (storage_id : Nat) (payload : List Nat) :
    Option ChangeBlockList :=
  match s.storage_infos.getD storage_id none with
  | none => none
  | some info =>
    let info := { info with count := info.count + 1 }
    let current_offset := s.data.length
    let headerLen := Ligeia.readLE s.data (info.last_offset + 8) 8
    if headerLen = CHANGES_PER_BLOCK then
      some { s with
        data := pushDataFull s.data info.last_offset info.bytes_per_change
          s.current_timestep_index payload,
        storage_infos := s.storage_infos.set storage_id
          (some { info with last_offset := current_offset }) }
    else
      some { s with
        data := pushDataNonFull s.data info.last_offset info.bytes_per_change headerLen
          s.current_timestep_index payload,
        storage_infos := s.storage_infos.set storage_id (some info) }

/-- Rust `ChangeBlockList::count_of` (lines 172-177). -/
def count_of (s : ChangeBlockList) (storage_id : Nat) : Option Nat :=
  (s.storage_infos.getD storage_id none).map (·.count)

/-- The state of Rust `StorageIter` (lines 275-281); `block_and` is recovered
as `data.drop block_offset`. -/
structure StorageIter where
  block_offset : Nat
  remaining : Nat
  index_in_block : Nat
  bytes_per_change : Nat
deriving DecidableEq

/-- Repeated `StorageIter::next` (lines 287-309), collecting all yielded
`ChangeOffset`s.  `fuel` bounds the number of `next` calls; `remaining` calls
always suffice.  `none` models the `delta_next.unwrap()` panic. -/
def iterOffsets (data : List Nat) : StorageIter → Nat → Option (List Nat)
  | _, 0 => some []
  | it, fuel + 1 =>
    if 0 < it.remaining then
      let remaining := it.remaining - 1
      if it.index_in_block = CHANGES_PER_BLOCK then
        let delta := Ligeia.readLE data it.block_offset 8
        if delta = 0 then none
        else
          let block_offset := it.block_offset + delta
          let offset := block_offset + 16 + it.bytes_per_change * 0
          (iterOffsets data ⟨block_offset, remaining, 0 + 1, it.bytes_per_change⟩ fuel).map
            (offset :: ·)
      else
        let offset := it.block_offset + 16 + it.bytes_per_change * it.index_in_block
        (iterOffsets data
            ⟨it.block_offset, remaining, it.index_in_block + 1, it.bytes_per_change⟩ fuel).map
          (offset :: ·)
    else some []

/-- Rust `ChangeBlockList::get_change` (lines 201-216): decode the `u32`
timestep index, look the `Timesteps` value up in the table (panic = `none`
when out of range), and read the packed bytes of the record. -/
def get_change (data timesteps : List Nat) (offset width PER_BYTE : Nat) :
    Option (Nat × List Nat) :=
  let timestep_index := Ligeia.readLE data offset 4
  match timesteps[timestep_index]? with
  | none => none
  | some t => some (t, Ligeia.readBytes data (offset + 4) ((width + PER_BYTE - 1) / PER_BYTE))

/-- Rust `iter_storage` (lines 186-198) followed by `get_change` on every
yielded offset: the full decoded change list of one storage. -/
def iter_changes (s : ChangeBlockList) (storage_id PER_BYTE : Nat) :
    Option (List (Nat × List Nat)) :=
  match s.storage_infos.getD storage_id none with
  | none => none
  | some info =>
    (iterOffsets s.data ⟨info.first_offset, info.count, 0, info.bytes_per_change⟩
        info.count).bind
      fun offs => offs.mapM fun o => get_change s.data s.timesteps o info.width PER_BYTE

/-- One ingest step against storage 0: a `push_timesteps` or a filled
`push_get`. -/
inductive WOp
  | ts (t : Nat)
  | ch (payload : List Nat)
deriving DecidableEq

/-- Run a sequence of ingest steps. -/
def runOps (s : ChangeBlockList) : List WOp → Option ChangeBlockList
  | [] => some s
  | .ts t :: rest => runOps (push_timesteps s t) rest
  | .ch p :: rest => (push_change s 0 p).bind (fun s => runOps s rest)

/-- Declare storage 0 on a fresh list, then run the ingest steps. -/
def runTrace (PER_BYTE width : Nat) (ops : List WOp) : Option ChangeBlockList :=
  runOps (add_storage new_in 0 PER_BYTE width) ops

/-- The records the spec expects `iter_changes` to yield for a trace: each
`push_change` paired with the most recently pushed timestep value. -/
def expectedChanges : List WOp → Option Nat → List (Nat × List Nat)
  | [], _ => []
  | .ts t :: rest, _ => expectedChanges rest (some t)
  | .ch p :: rest, cur => (cur.getD 0, p) :: expectedChanges rest cur

/-!
Shape functions describing the byte store of one storage after a sequence of
filled `push_get`s, used to state the list's invariant.  `es` is the abstract
record list: one `(timestep index, packed bytes)` pair per push, in push
order.
-/

/-- Number of blocks a storage with `n` records occupies (a fresh block is
allocated only by the push that overflows, so a storage with exactly
`128 k > 0` records still has `k` blocks). -/
def numBlocks (n : Nat) : Nat := (n - 1) / CHANGES_PER_BLOCK + 1

/-- The bytes of one record: 4-byte little-endian timestep index, then the
packed payload bytes. -/
def recBytes (e : Nat × List Nat) : List Nat := Ligeia.toLE 4 e.1 ++ e.2

/-- The dense record area of a block. -/
def recsBytes (es : List (Nat × List Nat)) : List Nat := (es.map recBytes).flatten

/-- One serialized block: header, then the records, then zero padding up to
the fixed capacity (`bpc` is the full record size `bytes_per_change`). -/
def blockBytes (bpc : Nat) (recs : List (Nat × List Nat)) (delta : Nat) : List Nat :=
  headerBytes delta recs.length ++ recsBytes recs ++
    List.replicate ((CHANGES_PER_BLOCK - recs.length) * bpc) 0

/-- The whole byte store of a single storage declared on a fresh list: full
blocks chained by `delta_next` equal to the block size, then the last,
possibly partial block with `delta_next = None`. -/
def storeBytes (bpc : Nat) (es : List (Nat × List Nat)) : List Nat :=
  if _h : es.length ≤ CHANGES_PER_BLOCK then blockBytes bpc es 0
  else blockBytes bpc (es.take CHANGES_PER_BLOCK) (16 + bpc * CHANGES_PER_BLOCK) ++
    storeBytes bpc (es.drop CHANGES_PER_BLOCK)
termination_by es.length
decreasing_by
  simp only [List.length_drop, CHANGES_PER_BLOCK] at *
  omega

/-- Byte offset of record `j` of a storage declared on a fresh list. -/
def recOff (bpc j : Nat) : Nat :=
  (j / CHANGES_PER_BLOCK) * (16 + bpc * CHANGES_PER_BLOCK) + 16 +
    bpc * (j % CHANGES_PER_BLOCK)

/-- The state of a `ChangeBlockList` holding the single storage 0 (logic
type with `PER_BYTE = PB`, width `width`) after the pushes recorded in `es`,
with timestep table `T` and current timestep index `cur`. -/
def absState (PB width : Nat) (es : List (Nat × List Nat)) (T : List Nat) (cur : Nat) :
    ChangeBlockList :=
  let bpc := 4 + (width + PB - 1) / PB
  ⟨storeBytes bpc es,
    [some ⟨0, (numBlocks es.length - 1) * (16 + bpc * CHANGES_PER_BLOCK), bpc, width,
      es.length⟩],
    T, cur⟩

/-- Abstract effect of a trace on `(es, T, cur)`: a `ts` appends to the table
and makes the new entry current; a `ch` records the current index and its
payload. -/
def specRun : List WOp → List (Nat × List Nat) × List Nat × Nat →
    List (Nat × List Nat) × List Nat × Nat
  | [], acc => acc
  | .ts t :: rest, (es, T, _) => specRun rest (es, T ++ [t], T.length)
  | .ch p :: rest, (es, T, cur) => specRun rest (es ++ [(cur, p)], T, cur)

/-- The timestep values a trace pushes, in order. -/
def tsValues (ops : List WOp) : List Nat :=
  ops.filterMap fun o => match o with | .ts t => some t | .ch _ => none

/-- The payloads a trace pushes, in order. -/
def chPayloads (ops : List WOp) : List (List Nat) :=
  ops.filterMap fun o => match o with | .ts _ => none | .ch p => some p

/-- A trace whose first operation (if any) is a `ts` — equivalently, since
traces consist only of `ts` and `ch` steps, one in which every `ch` is
preceded by at least one `ts`. -/
def tsLeads : List WOp → Bool
  | [] => true
  | .ts _ :: _ => true
  | .ch _ :: _ => false

end LChange

namespace C2Change

/-!
Byte-level embedding of `src/core2/src/waves/change.rs`.

`ChangeBlockHeader` is `{ delta_previous : Option<NonZeroUsize>, len : usize }`,
serialized explicitly by the source itself as 8 little-endian bytes of
`delta_previous` (0 = `None`) followed by 8 little-endian bytes of `len`.
Each change record is an 8-byte `ChangeHeader` slot followed by
`bytes_per_change` data bytes.
-/

def CHANGES_PER_BLOCK : Nat := 16

/-- Rust `size_of_changes(bytes_per_change)` (lines 5-7). -/
def size_of_changes (bytes_per_change : Nat) : Nat :=
  (8 + bytes_per_change) * CHANGES_PER_BLOCK

/-- Rust `block_offset_to_change_offset` (lines 9-11). -/
def block_offset_to_change_offset (block_header_offset bytes_per_change index : Nat) : Nat :=
  block_header_offset + 16 + (8 + bytes_per_change) * index

/-- Serialized `ChangeBlockHeader` (its two `From` impls, lines 44-60). -/
def headerBytes (delta_previous len : Nat) : List Nat :=
  Ligeia.toLE 8 delta_previous ++ Ligeia.toLE 8 len

structure StorageInfo where
  last_offset : Nat
  bytes_per_change : Nat
  count : Nat
deriving DecidableEq

structure ChangeBlockList where
  data : List Nat
  storage_infos : List (Option StorageInfo)
deriving DecidableEq

/-- Rust `ChangeBlockList::new_in`. -/
def new_in : ChangeBlockList := ⟨[], []⟩

/-- Rust `ChangeBlockList::add_storage` (lines 83-103).  `StorageInfo.last_offset`
is a `NonZeroUsize` and the source stores `current_offset.try_into().unwrap()`
(line 99), which panics when `current_offset = 0` — in particular on every
`add_storage` against a list whose `data` is still empty; `none` models that
panic. -/
def add_storage (s : ChangeBlockList) (storage_id bytes_per_change : Nat) :
    Option ChangeBlockList :=
  let infos := if s.storage_infos.length ≤ storage_id
    then s.storage_infos ++ List.replicate (storage_id + 1 - s.storage_infos.length) none
    else s.storage_infos
  let current_offset := s.data.length
  let data := s.data ++ headerBytes 0 0
  let data := data ++ List.replicate (size_of_changes bytes_per_change) 0
  if current_offset = 0 then none
  else some ⟨data, infos.set storage_id (some ⟨current_offset, bytes_per_change, 0⟩)⟩

/-- Rust `ChangeBlockList::push_change` (lines 105-140), with the caller's
`data` pointer materialized as the `payload` byte list it points to.  In the
full-block branch the source allocates a fresh empty block and returns
without copying `payload` anywhere and without touching the new block's
`len`. -/
def push_change (s : ChangeBlockList) (storage_id : Nat) (payload : List Nat) :
    Option ChangeBlockList :=
  match s.storage_infos.getD storage_id none with
  | none => none
  | some info =>
    let delta_previous := Ligeia.readLE s.data info.last_offset 8
    let len := Ligeia.readLE s.data (info.last_offset + 8) 8
    let info := { info with count := info.count + 1 }
    if ¬ (len = CHANGES_PER_BLOCK) then
      let change_offset :=
        block_offset_to_change_offset info.last_offset info.bytes_per_change len
      let data := Ligeia.writeBytes s.data change_offset
        (payload.take info.bytes_per_change)
      let data := Ligeia.writeBytes data info.last_offset
        (headerBytes delta_previous (len + 1))
      some { data, storage_infos := s.storage_infos.set storage_id (some info) }
    else
      let new_offset := s.data.length
      let data := s.data ++ headerBytes (new_offset - info.last_offset) 0
      let data := data ++ List.replicate (size_of_changes info.bytes_per_change) 0
      let info := { info with last_offset := new_offset }
      some { data, storage_infos := s.storage_infos.set storage_id (some info) }

/-- Rust `ChangeBlockList::count_of` (lines 142-144). -/
def count_of (s : ChangeBlockList) (storage_id : Nat) : Option Nat :=
  (s.storage_infos.getD storage_id none).map (·.count)

/-- Sum of the `len` fields along the `delta_previous` chain starting at
`off` — the number of records actually stored in reachable blocks.  `fuel`
bounds the number of followed links. -/
def chainLenSum (data : List Nat) : Nat → Nat → Nat
  | _, 0 => 0
  | off, fuel + 1 =>
    let delta := Ligeia.readLE data off 8
    let len := Ligeia.readLE data (off + 8) 8
    len + (if delta = 0 then 0 else chainLenSum data (off - delta) fuel)

/-- Well-formedness of a `delta_previous` chain: every visited block header
lies inside `data` and every link steps strictly backwards. -/
def chainWFb (data : List Nat) : Nat → Nat → Bool
  | _, 0 => true
  | off, fuel + 1 =>
    decide (off + 16 ≤ data.length) &&
      (let delta := Ligeia.readLE data off 8
       if delta = 0 then true
       else decide (delta ≤ off) && chainWFb data (off - delta) fuel)

/-- The state that the full-block branch of `push_change` produces: the old
bytes plus one fresh block whose header links back to the old last block and
whose `len` is 0, with only the per-storage `count` and `last_offset`
updated.  The caller's change bytes appear nowhere in it. -/
def fullBlockAppendResult (s : ChangeBlockList) (id : Nat) (info : StorageInfo) :
    ChangeBlockList :=
  ⟨s.data ++ headerBytes (s.data.length - info.last_offset) 0 ++
      List.replicate (size_of_changes info.bytes_per_change) 0,
    s.storage_infos.set id (some ⟨s.data.length, info.bytes_per_change, info.count + 1⟩)⟩

/-- A list whose byte store already holds eight bytes, so that the next
storage is added at the nonzero offset 8 and `add_storage`'s `NonZeroUsize`
unwrap succeeds. -/
def demoBase : ChangeBlockList := ⟨List.replicate 8 0, []⟩

/-- A concrete one-storage list (`bytes_per_change = 1`, block at offset 8)
whose single block has been filled by sixteen `push_change` calls. -/
def demoFullState : ChangeBlockList :=
  (List.range 16).foldl (fun acc i => (push_change acc 0 [i]).getD acc)
    ((add_storage demoBase 0 1).getD ⟨[], []⟩)

end C2Change

/-! ## Theorems -/

section ByteKit

open Ligeia

theorem toLE_length (k n : Nat) : (toLE k n).length = k := by
  induction k generalizing n with
  | zero => rfl
  | succ a ih => simp [toLE, ih]

theorem fromLE_toLE (k n : Nat) : fromLE (toLE k n) = n % 256 ^ k := by
  induction k generalizing n with
  | zero => simp [toLE, fromLE, Nat.mod_one]
  | succ a ih =>
    rw [toLE, fromLE, ih, Nat.pow_succ', Nat.mod_mul]

theorem fromLE_toLE_of_lt {k n : Nat} (h : n < 256 ^ k) : fromLE (toLE k n) = n := by
  rw [fromLE_toLE, Nat.mod_eq_of_lt h]

theorem readBytes_length {data : List Nat} {off len : Nat} (h : off + len ≤ data.length) :
    (readBytes data off len).length = len := by
  simp [readBytes]
  omega

theorem writeBytes_length {data bs : List Nat} {off : Nat} (h : off + bs.length ≤ data.length) :
    (writeBytes data off bs).length = data.length := by
  simp [writeBytes]
  omega

theorem readBytes_append_left {data suffix : List Nat} {off len : Nat}
    (h : off + len ≤ data.length) :
    readBytes (data ++ suffix) off len = readBytes data off len := by
  unfold readBytes
  rw [List.drop_append_of_le_length (by omega)]
  rw [List.take_append_of_le_length (by simp; omega)]

theorem readBytes_append_right (data suffix : List Nat) (k len : Nat) :
    readBytes (data ++ suffix) (data.length + k) len = readBytes suffix k len := by
  unfold readBytes
  rw [List.drop_append_eq_append_drop,
    List.drop_eq_nil_of_le (show data.length ≤ data.length + k by omega), List.nil_append,
    show data.length + k - data.length = k by omega]

theorem readBytes_readBytes_split (data : List Nat) (off a b : Nat) :
    readBytes data off (a + b) = readBytes data off a ++ readBytes data (off + a) b := by
  unfold readBytes
  rw [List.take_add]
  congr 1
  rw [List.drop_drop]

theorem readBytes_writeBytes_self {data bs : List Nat} {off : Nat}
    (h : off + bs.length ≤ data.length) :
    readBytes (writeBytes data off bs) off bs.length = bs := by
  unfold readBytes writeBytes
  have htake : (data.take off).length = off := by simp; omega
  rw [List.append_assoc, List.drop_append_of_le_length (by omega), List.drop_eq_nil_of_le (by omega)]
  simp

theorem readBytes_writeBytes_left {data bs : List Nat} {off off2 len2 : Nat}
    (hle : off ≤ data.length) (h : off2 + len2 ≤ off) :
    readBytes (writeBytes data off bs) off2 len2 = readBytes data off2 len2 := by
  unfold readBytes writeBytes
  have htake : (data.take off).length = off := by simp; omega
  rw [List.append_assoc, List.drop_append_eq_append_drop, List.take_append_eq_append_take]
  have h1 : ((data.take off).drop off2).take len2 = (data.drop off2).take len2 := by
    rw [List.drop_take, List.take_take]
    congr 1
    omega
  rw [htake]
  have h2 : len2 - ((data.take off).drop off2).length = 0 := by
    simp
    omega
  rw [h2]
  simp [h1]

theorem readBytes_writeBytes_right {data bs : List Nat} {off off2 len2 : Nat}
    (hle : off ≤ data.length) (h : off + bs.length ≤ off2) :
    readBytes (writeBytes data off bs) off2 len2 = readBytes data off2 len2 := by
  unfold readBytes writeBytes
  have htake : (data.take off).length = off := by simp; omega
  rw [List.append_assoc, List.drop_append_eq_append_drop,
    List.drop_eq_nil_of_le (show (data.take off).length ≤ off2 by omega),
    List.nil_append, htake, List.drop_append_eq_append_drop,
    List.drop_eq_nil_of_le (show bs.length ≤ off2 - off by omega),
    List.nil_append, List.drop_drop,
    show off + bs.length + (off2 - off - bs.length) = off2 by omega]

theorem writeBytes_append_right (data suffix bs : List Nat) (k : Nat) :
    writeBytes (data ++ suffix) (data.length + k) bs = data ++ writeBytes suffix k bs := by
  unfold writeBytes
  rw [List.take_append_eq_append_take]
  have h1 : data.length + k - data.length = k := by omega
  rw [List.take_of_length_le (by omega), h1]
  rw [List.drop_append_eq_append_drop]
  rw [List.drop_eq_nil_of_le (by omega), List.nil_append]
  have h2 : data.length + k + bs.length - data.length = k + bs.length := by omega
  rw [h2]
  simp

theorem readBytes_append_right' {data suffix : List Nat} {off k len : Nat}
    (h : off = data.length + k) :
    readBytes (data ++ suffix) off len = readBytes suffix k len := by
  subst h
  exact readBytes_append_right data suffix k len

theorem writeBytes_zero (l bs : List Nat) : writeBytes l 0 bs = bs ++ l.drop bs.length := by
  simp [writeBytes]

theorem writeBytes_append_right' {data suffix bs : List Nat} {off k : Nat}
    (h : off = data.length + k) :
    writeBytes (data ++ suffix) off bs = data ++ writeBytes suffix k bs := by
  subst h
  exact writeBytes_append_right data suffix bs k

theorem readLE_toLE_lt {k n : Nat} (h : n < 256 ^ k) (suffix : List Nat) :
    readLE (toLE k n ++ suffix) 0 k = n := by
  unfold readLE
  rw [show (0 : Nat) = 0 from rfl]
  unfold readBytes
  rw [List.drop_zero, List.take_append_of_le_length (by rw [toLE_length]),
    List.take_of_length_le (by rw [toLE_length]), fromLE_toLE_of_lt h]

end ByteKit

section MmapTheorems

open MmapAlloc

/-- C9, counterexample: an allocation of 30 MB — well above the source's
20 MB threshold — is satisfied from the heap when the cumulative allocated
size (0) has not reached half of the initially available memory, so a size
above the threshold alone does not force file backing. -/
theorem C9_counterexample :
    allocate (some ⟨1000000000⟩) 0 ⟨30000000, 1⟩ = AllocPath.heap ∧
    20000000 ≤ 30000000 := by
  constructor
  · rfl
  · decide

/-- C9, amended: `MmappableAllocator::allocate` maps an anonymous temporary
file iff memory information is available AND the padded size is at least
20 MB AND the initially available memory is at most twice the cumulative
allocated size (i.e. the cumulative allocation has reached half of it); both
conditions are required, and without memory information it never mmaps. -/
theorem C9_amended (memInfo : Option MemInfo) (allocatedSize : Nat) (layout : MLayout) :
    allocate memInfo allocatedSize layout = AllocPath.mmapFile ↔
      ∃ info, memInfo = some info ∧ 20000000 ≤ (padToAlign layout).size ∧
        info.avail ≤ allocatedSize * 2 := by
  cases memInfo with
  | none => simp [allocate, should_mmap]
  | some info =>
    by_cases h1 : 20000000 ≤ (padToAlign layout).size <;>
      by_cases h2 : info.avail ≤ allocatedSize * 2 <;>
        simp [allocate, should_mmap, h1, h2]

end MmapTheorems

section MixTheorems

open Core2Mix

/-- C7, counterexample: for the `Bit` instance of `Max`, combining the packed
chunks `0b01` and `0b10` over all 8 units yields `cmp::max(1, 2) = 2 = 0b10`,
not the elementwise per-unit maximum `0b11`: the packed operation is not the
elementwise lift of the per-unit max. -/
theorem C7_counterexample :
    maxMixPartialBit 1 2 8 ≠ some (specMixBitElementwise 1 2 8) ∧
    maxMixPartialBit 1 2 8 = some 2 ∧
    specMixBitElementwise 1 2 8 = 3 := by
  refine ⟨by decide, rfl, by decide⟩

/-- C7, amended: `Max::mix_partial` asserts the unit count bound and then
returns the numeric byte-wise maximum of the two whole chunks, ignoring
`count`: no per-unit elementwise lift is performed and no tail units are
masked. -/
theorem C7_amended (lhs rhs count : Nat) (hb : count ≤ 8) :
    maxMixPartialBit lhs rhs count = some (max lhs rhs) ∧
    (count ≤ 4 → maxMixPartialQit lhs rhs count = some (max lhs rhs)) := by
  refine ⟨?_, fun hq => ?_⟩
  · simp [maxMixPartialBit, hb]
  · simp [maxMixPartialQit, hq]

/-- Witness for C7: the amended statement applied at `lhs = 1`, `rhs = 2`,
`count = 3`. -/
theorem C7_witness :
    maxMixPartialBit 1 2 3 = some (max 1 2) ∧ maxMixPartialQit 1 2 3 = some (max 1 2) :=
  ⟨(C7_amended 1 2 3 (by decide)).1, (C7_amended 1 2 3 (by decide)).2 (by decide)⟩

end MixTheorems

section TimestepTheorems

open LChange

/-- C3, counterexample: `push_timesteps` deduplicates nothing and rejects
nothing.  Pushing the timestep 5 twice allocates a second index (the current
index becomes 1, not the previous 0, and the table holds two entries), and
subsequently pushing the smaller timestep 3 succeeds and appends it instead
of failing with a regression error. -/
theorem C3_counterexample :
    (push_timesteps (push_timesteps new_in 5) 5).current_timestep_index = 1 ∧
    (push_timesteps (push_timesteps new_in 5) 5).timesteps = [5, 5] ∧
    (push_timesteps (push_timesteps (push_timesteps new_in 5) 5) 3).timesteps = [5, 5, 3] :=
  ⟨rfl, rfl, rfl⟩

/-- C3, amended: for every prior state and every pushed timestep — equal,
greater, or smaller than the last — `push_timesteps` unconditionally appends
the value to the table and makes the current index the new entry's index
(the previous table length); no deduplication and no regression check
exists. -/
theorem C3_amended (s : ChangeBlockList) (ts : Nat) :
    (push_timesteps s ts).timesteps = s.timesteps ++ [ts] ∧
    (push_timesteps s ts).current_timestep_index = s.timesteps.length :=
  ⟨rfl, rfl⟩

end TimestepTheorems

section UnitTheorems

open C2U

/-- C4, failing input: in `core2/src/unit.rs`, writing unit `One` at offset 1
of a zeroed `TwoLogic` chunk and reading offset 1 back yields `Zero` (the
getter's mask expression `chunk & (1 << ob) >> ob` reduces to `chunk & 1`),
and the same write at offset 1 of a zeroed `FourLogic` chunk changes the
value read at offset 0 from `Zero` to `Unknown` (the setter shifts by
`offset % 4` instead of `(offset % 4) * 2`, so fields overlap): set/get
round-trip and setter isolation both fail. -/
theorem C4_bug_eval :
    TwoLogic.get_unit (TwoLogic.set_unit [0] 1 .One) 1 = TwoLogic.Zero ∧
    TwoLogic.Zero ≠ TwoLogic.One ∧
    FourLogic.get_unit [0] 0 = FourLogic.Zero ∧
    FourLogic.get_unit (FourLogic.set_unit [0] 1 .One) 0 = FourLogic.Unknown := by
  refine ⟨rfl, by decide, rfl, rfl⟩

/-- C8, counterexample: `ligeia-core`'s `Nine::get_unit` transmutes the raw
nibble without clamping, so the stored bit-pattern 15 yields no valid
nine-valued unit at all (undefined behaviour in the source) instead of being
clamped to `HighImpedance`. -/
theorem C8_counterexample :
    LLogic.Nine.get_unit [15] 0 = none ∧
    LLogic.Nine.get_unit [15] 0 ≠ some LLogic.Nine.HighImpedance := by
  refine ⟨rfl, by decide⟩

/-- C8, amended: in `core2/src/unit.rs`, `NineLogic::get_unit` clamps the
nibble it reads to at most the `HighImpedance` discriminant, so for every
byte content and every offset it returns a valid member of the nine-valued
set, and whenever the addressed raw nibble is in `9..=15` the result is
exactly `HighImpedance`; `ligeia-core`'s `Nine::get_unit` performs no such
clamping. -/
theorem C8_amended (chunks : List Nat) (offset : Nat) :
    (∃ u, NineLogic.get_unit chunks offset = some u) ∧
    (9 ≤ chunks.getD (offset / 2) 0 &&& 15 →
      NineLogic.get_unit chunks offset = some NineLogic.HighImpedance) := by
  have hmask : ∀ n : Nat, (15 <<< n) >>> n = 15 := by
    intro n
    rw [Nat.shiftLeft_eq, Nat.shiftRight_eq_div_pow]
    exact Nat.mul_div_cancel 15 (pow_pos (by norm_num) n)
  have hof : ∀ v : Nat, v ≤ 8 → ∃ u, NineLogic.ofNat? v = some u := by
    intro v hv
    interval_cases v <;> exact ⟨_, rfl⟩
  constructor
  · exact hof _ (Nat.min_le_right _ _)
  · intro h9
    show NineLogic.ofNat? (min (chunks.getD (offset / 2) 0 &&&
      ((15 <<< (offset % 2)) >>> (offset % 2))) 8) = some NineLogic.HighImpedance
    rw [hmask]
    rw [Nat.min_eq_right (le_trans (by norm_num) h9)]
    rfl

/-- Witness for C8: the amended statement applied to the single byte 15 at
offset 0. -/
theorem C8_witness :
    NineLogic.get_unit [15] 0 = some NineLogic.HighImpedance :=
  (C8_amended [15] 0).2 (by decide)

end UnitTheorems

section ForestTheorems

open IForest

/-- The fuel argument of `trailingOnesAux` is irrelevant once it dominates `n`. -/
theorem trailingOnesAux_stable :
    ∀ f1 f2 n, n ≤ f1 → n ≤ f2 → Ligeia.trailingOnesAux f1 n = Ligeia.trailingOnesAux f2 n := by
  intro f1
  induction f1 with
  | zero =>
    intro f2 n h1 _
    interval_cases n
    cases f2 <;> simp [Ligeia.trailingOnesAux]
  | succ a ih =>
    intro f2 n h1 h2
    match f2, h2 with
    | 0, h2 =>
      interval_cases n
      simp [Ligeia.trailingOnesAux]
    | b + 1, h2 =>
      show (if n % 2 = 1 then Ligeia.trailingOnesAux a (n / 2) + 1 else 0) =
        (if n % 2 = 1 then Ligeia.trailingOnesAux b (n / 2) + 1 else 0)
      by_cases h : n % 2 = 1
      · rw [if_pos h, if_pos h, ih b (n / 2) (by omega) (by omega)]
      · rw [if_neg h, if_neg h]

/-- The defining recurrence of `trailing_ones`. -/
theorem trailingOnes_eq (n : Nat) :
    Ligeia.trailingOnes n = if n % 2 = 1 then Ligeia.trailingOnes (n / 2) + 1 else 0 := by
  cases n with
  | zero => simp [Ligeia.trailingOnes, Ligeia.trailingOnesAux]
  | succ m =>
    show (if (m + 1) % 2 = 1 then Ligeia.trailingOnesAux m ((m + 1) / 2) + 1 else 0) = _
    by_cases h : (m + 1) % 2 = 1
    · rw [if_pos h, if_pos h,
        trailingOnesAux_stable m ((m + 1) / 2) ((m + 1) / 2) (by omega) le_rfl]
      rfl
    · rw [if_neg h, if_neg h]

/-- A number with `t` trailing one bits is at least `2 ^ t - 1`. -/
theorem two_pow_trailingOnes_le (n : Nat) : 2 ^ Ligeia.trailingOnes n - 1 ≤ n := by
  induction n using Nat.strong_induction_on with
  | _ n ih =>
    rw [trailingOnes_eq]
    by_cases h : n % 2 = 1
    · rw [if_pos h]
      have hlt : n / 2 < n := by omega
      have hrec := ih (n / 2) hlt
      have hp : 2 ^ (Ligeia.trailingOnes (n / 2) + 1) = 2 * 2 ^ Ligeia.trailingOnes (n / 2) := by
        ring
      omega
    · rw [if_neg h]
      simp

/-- Every index in the aggregation-loop trace is at most the starting index. -/
theorem pushFoldsTouched_le :
    ∀ r c l, ∀ x ∈ IForest.pushFoldsTouched c l r, x ≤ c := by
  intro r
  induction r with
  | zero =>
    intro c l x hx
    simp [IForest.pushFoldsTouched] at hx
  | succ a ih =>
    intro c l x hx
    simp only [IForest.pushFoldsTouched, List.mem_cons] at hx
    rcases hx with h | h | h
    · subst h; exact Nat.sub_le _ _
    · subst h; exact le_rfl
    · exact le_trans (ih _ _ x h) (Nat.sub_le _ _)

/-- One `push` grows the physical element array by exactly two entries. -/
theorem push_vals_length (combineFn : Nat × List Nat → Nat × List Nat → List Nat)
    (st : List (Nat × List Nat)) (vals : List Nat) (offset : Nat) :
    (IForest.push combineFn st vals offset).2.length = vals.length + 2 := by
  simp [IForest.push]

/-- Pushing a sequence of offsets grows the physical array by two per leaf. -/
theorem pushAll_vals_length (combineFn : Nat × List Nat → Nat × List Nat → List Nat) :
    ∀ (offsets : List Nat) (stv : List (Nat × List Nat) × List Nat),
      (IForest.pushAll combineFn stv offsets).2.length = stv.2.length + 2 * offsets.length := by
  intro offsets
  induction offsets with
  | nil => intro stv; simp [IForest.pushAll]
  | cons o os ih =>
    intro stv
    show (IForest.pushAll combineFn
      (IForest.push combineFn stv.1 stv.2 o) os).2.length = _
    rw [ih, push_vals_length]
    simp
    ring

/-- C5, confirmed: after pushing `L` leaves into an `ImplicitForest` the
physical element array `vals` holds exactly `2 * L` entries, and during each
push — when the running length is the odd number `2 * n + 1` — every `vals`
index the aggregation loop and the final tail copy touch is strictly below
that running length, all the index subtractions `current - (1 << level)` and
`len - (1 << levels_to_index)` being exact (no underflow). -/
theorem C5_confirmed (combineFn : Nat × List Nat → Nat × List Nat → List Nat)
    (st : List (Nat × List Nat)) (offsets : List Nat) :
    (IForest.pushAll combineFn (st, []) offsets).2.length = 2 * offsets.length ∧
    ∀ n, n < offsets.length →
      ((∀ i ∈ IForest.pushTouched (2 * n + 1), i < 2 * n + 1) ∧
       ∀ j, j < Ligeia.trailingOnes (2 * n + 1) → 2 ^ j ≤ 2 * n + 1) := by
  constructor
  · rw [pushAll_vals_length]
    simp
  · intro n _
    constructor
    · intro i hi
      simp only [IForest.pushTouched, List.mem_append, List.mem_singleton] at hi
      rcases hi with h | h
      · have := pushFoldsTouched_le _ _ _ i h
        omega
      · subst h
        have hpos : 0 < 1 <<< (Ligeia.trailingOnes (2 * n + 1) - 1) := by
          rw [Nat.shiftLeft_eq]
          positivity
        omega
    · intro j hj
      have h1 := two_pow_trailingOnes_le (2 * n + 1)
      have h2 : 2 ^ (j + 1) ≤ 2 ^ Ligeia.trailingOnes (2 * n + 1) :=
        Nat.pow_le_pow_right (by norm_num) (by omega)
      have hp : 2 ^ (j + 1) = 2 * 2 ^ j := by ring
      omega

/-- Witness for C5: three leaves pushed into an empty forest over a two-record
store, checked at the second push (running length 3). -/
theorem C5_witness :
    (IForest.pushAll IForest.maxCombine ([], []) [5, 6, 7]).2.length = 2 * 3 ∧
    ∀ i ∈ IForest.pushTouched (2 * 1 + 1), i < 2 * 1 + 1 :=
  ⟨(C5_confirmed IForest.maxCombine [] [5, 6, 7]).1,
   ((C5_confirmed IForest.maxCombine [] [5, 6, 7]).2 1 (by decide)).1⟩

/-- C6, counterexample: querying the empty range `[0, 0)` of the empty forest
does not return the aggregator's empty summary — the loop never folds, the
summary stays `None`, and `combined_header.unwrap()` panics (`none`). -/
theorem C6_counterexample :
    IForest.range_query IForest.maxCombine [] [] 0 0 [0] = none := rfl

/-- C6, amended: for every forest state and every `a` with `2 * a` inside the
physical array, `range_query` over the empty range `[a, a)` performs no folds
and panics unwrapping the absent summary (it produces no value at all),
instead of returning the empty summary and the untouched accumulator. -/
theorem C6_amended (combineFn : Nat × List Nat → Nat × List Nat → List Nat)
    (st : List (Nat × List Nat)) (vals : List Nat) (a : Nat) (acc : List Nat)
    (h : 2 * a ≤ vals.length) :
    IForest.range_query combineFn st vals a a acc = none := by
  unfold IForest.range_query
  have h' : a * 2 ≤ vals.length := by omega
  rw [if_pos ⟨h', h'⟩]
  simp [IForest.queryLoop, Nat.sub_self]

/-- Witness for C6: the amended statement on the two-leaf forest built in the
C1 evaluation, at `a = 1`. -/
theorem C6_witness :
    IForest.range_query IForest.maxCombine [(10, [1]), (20, [1])] [0, 0, 1, 0] 1 1 [0] = none :=
  C6_amended IForest.maxCombine [(10, [1]), (20, [1])] [0, 0, 1, 0] 1 [0] (by decide)

/-- C1, failing input: a width-1 two-valued forest with the reference `max`
aggregator over a store holding leaf records `[0]` (at offset 0, timesteps
header 10) and `[1]` (at offset 1, header 20).  During the second `push` the
aggregation loop combines through the duplicated offset and overwrites leaf
0's record bytes with the aggregate `[1]`; `range_query` over the leaf range
`[0, 1)` then returns packed value `[1]`, while the naive left fold of
`combine` over `leaves[0..1]` is `[0]`. -/
theorem C1_bug_eval :
    IForest.pushAll IForest.maxCombine ([(10, [0]), (20, [1])], []) [0, 1] =
      ([(10, [1]), (20, [1])], [0, 0, 1, 0]) ∧
    IForest.range_query IForest.maxCombine [(10, [1]), (20, [1])] [0, 0, 1, 0] 0 1 [0] =
      some (10, [1]) ∧
    IForest.specNaiveFold IForest.maxCombine (List.take 1 [(10, [0]), (20, [1])]) =
      some (10, [0]) ∧
    ((10, [1]) : Nat × List Nat) ≠ (10, [0]) := by
  refine ⟨by decide, by decide, rfl, by decide⟩

end ForestTheorems

section C2ChangeTheorems

open Ligeia C2Change

/-- Appending bytes to the store does not change the record count of a
well-formed backward chain. -/
theorem c2_chainLenSum_append (data suffix : List Nat) :
    ∀ fuel off, chainWFb data off fuel = true →
      chainLenSum (data ++ suffix) off fuel = chainLenSum data off fuel := by
  intro fuel
  induction fuel with
  | zero => intro off _; rfl
  | succ a ih =>
    intro off hwf
    simp only [chainWFb, Bool.and_eq_true, decide_eq_true_eq] at hwf
    obtain ⟨hoff, hrest⟩ := hwf
    have hd : readLE (data ++ suffix) off 8 = readLE data off 8 := by
      unfold readLE
      rw [readBytes_append_left (by omega)]
    have hl : readLE (data ++ suffix) (off + 8) 8 = readLE data (off + 8) 8 := by
      unfold readLE
      rw [readBytes_append_left (by omega)]
    simp only [chainLenSum, hd, hl]
    by_cases hz : readLE data off 8 = 0
    · rw [if_pos hz, if_pos hz]
    · rw [if_neg hz, if_neg hz]
      rw [if_neg hz, Bool.and_eq_true, decide_eq_true_eq] at hrest
      rw [ih _ hrest.2]

/-- C10, confirmed: in `core2`, calling `push_change` while the storage's
current block is full appends one fresh block whose `len` stays 0, increments
the per-storage count, and never writes the supplied change bytes anywhere —
the resulting state does not depend on the payload at all, and the total of
the `len` fields along the (well-formed) block chain is unchanged while
`count_of` grows by one, so `count_of` exceeds the number of records actually
stored and reachable. -/
theorem C10_confirmed (s : ChangeBlockList) (id : Nat) (info : StorageInfo)
    (payload : List Nat)
    (hinfo : s.storage_infos.getD id none = some info)
    (hfull : readLE s.data (info.last_offset + 8) 8 = CHANGES_PER_BLOCK)
    (hlast : info.last_offset + 16 ≤ s.data.length)
    (hsz : s.data.length < 2 ^ 64) :
    push_change s id payload = some (fullBlockAppendResult s id info) ∧
    (∀ payload', push_change s id payload' = push_change s id payload) ∧
    count_of (fullBlockAppendResult s id info) id = some (info.count + 1) ∧
    readLE (fullBlockAppendResult s id info).data (s.data.length + 8) 8 = 0 ∧
    ∀ fuel, chainWFb s.data info.last_offset fuel = true →
      chainLenSum (fullBlockAppendResult s id info).data s.data.length (fuel + 1) =
        chainLenSum s.data info.last_offset fuel := by
  have h2to64 : (256 : Nat) ^ 8 = 2 ^ 64 := by norm_num
  have key : ∀ q : List Nat, push_change s id q = some (fullBlockAppendResult s id info) := by
    intro q
    simp only [push_change, hinfo, hfull]
    rw [if_neg (by simp)]
    rfl
  have hid : id < s.storage_infos.length := by
    by_contra hged
    rw [List.getD_eq_getElem?_getD, List.getElem?_eq_none (by omega)] at hinfo
    simp at hinfo
  have hlen0 : readLE (fullBlockAppendResult s id info).data (s.data.length + 8) 8 = 0 := by
    show readLE (s.data ++ headerBytes (s.data.length - info.last_offset) 0 ++
      List.replicate (size_of_changes info.bytes_per_change) 0) (s.data.length + 8) 8 = 0
    unfold readLE
    rw [List.append_assoc, readBytes_append_right]
    unfold headerBytes
    rw [List.append_assoc,
      readBytes_append_right' (show (8 : Nat) = (toLE 8 (s.data.length - info.last_offset)).length + 0
        by rw [toLE_length])]
    exact readLE_toLE_lt (by positivity) _
  refine ⟨key payload, fun q => (key q).trans (key payload).symm, ?_, hlen0, ?_⟩
  · unfold count_of fullBlockAppendResult
    rw [List.getD_eq_getElem?_getD, List.getElem?_set_self (by simpa using hid)]
    rfl
  · intro fuel hwf
    have hδ : readLE (fullBlockAppendResult s id info).data s.data.length 8 =
        s.data.length - info.last_offset := by
      show readLE (s.data ++ headerBytes (s.data.length - info.last_offset) 0 ++
        List.replicate (size_of_changes info.bytes_per_change) 0) s.data.length 8 = _
      unfold readLE
      rw [List.append_assoc,
        readBytes_append_right' (show s.data.length = s.data.length + 0 by omega)]
      unfold headerBytes
      rw [List.append_assoc]
      exact readLE_toLE_lt (by omega) _
    simp only [chainLenSum, hδ, hlen0]
    rw [if_neg (show ¬ (s.data.length - info.last_offset = 0) by omega)]
    rw [show s.data.length - (s.data.length - info.last_offset) = info.last_offset by omega]
    show 0 + chainLenSum (s.data ++ headerBytes (s.data.length - info.last_offset) 0 ++
      List.replicate (size_of_changes info.bytes_per_change) 0) info.last_offset fuel = _
    rw [List.append_assoc, c2_chainLenSum_append _ _ fuel info.last_offset hwf]
    omega

set_option maxRecDepth 100000 in
/-- Witness for C10: the seventeenth `push_change` on a one-storage list
whose single 16-record block (at offset 8) is full loses the payload `[99]`
and bumps the count to 17. -/
theorem C10_witness :
    push_change demoFullState 0 [99] = some (fullBlockAppendResult demoFullState 0 ⟨8, 1, 16⟩) ∧
    count_of (fullBlockAppendResult demoFullState 0 ⟨8, 1, 16⟩) 0 = some 17 := by
  have h := C10_confirmed demoFullState 0 ⟨8, 1, 16⟩ [99] (by decide) (by decide) (by decide)
    (by decide)
  exact ⟨h.1, h.2.2.1⟩

end C2ChangeTheorems

section LChangeTheorems

open Ligeia LChange

theorem CPB_eq : CHANGES_PER_BLOCK = 128 := rfl

theorem headerBytes_length (d l : Nat) : (headerBytes d l).length = 16 := by
  simp [headerBytes, toLE_length]

theorem recsBytes_length {bpc : Nat} {es : List (Nat × List Nat)}
    (h : ∀ e ∈ es, (recBytes e).length = bpc) :
    (recsBytes es).length = es.length * bpc := by
  induction es with
  | nil => simp [recsBytes]
  | cons e es ih =>
    show (recBytes e ++ recsBytes es).length = _
    rw [List.length_append, h e (by simp), ih fun x hx => h x (by simp [hx])]
    simp
    ring

theorem blockBytes_length {bpc : Nat} {recs : List (Nat × List Nat)} {d : Nat}
    (hle : recs.length ≤ CHANGES_PER_BLOCK)
    (h : ∀ e ∈ recs, (recBytes e).length = bpc) :
    (blockBytes bpc recs d).length = 16 + bpc * CHANGES_PER_BLOCK := by
  rw [blockBytes, List.length_append, List.length_append, headerBytes_length,
    recsBytes_length h, List.length_replicate]
  rw [CPB_eq] at *
  have : (128 - recs.length) * bpc = 128 * bpc - recs.length * bpc := by
    rw [Nat.sub_mul]
  rw [this]
  have h1 : recs.length * bpc ≤ 128 * bpc := Nat.mul_le_mul_right _ hle
  have h2 : bpc * 128 = 128 * bpc := Nat.mul_comm _ _
  omega

theorem numBlocks_small {n : Nat} (h : n ≤ CHANGES_PER_BLOCK) : numBlocks n = 1 := by
  rw [numBlocks, CPB_eq] at *
  omega

theorem numBlocks_step {n : Nat} (h : CHANGES_PER_BLOCK < n) :
    numBlocks n = numBlocks (n - CHANGES_PER_BLOCK) + 1 := by
  rw [numBlocks, numBlocks, CPB_eq] at *
  omega

theorem storeBytes_length {bpc : Nat} :
    ∀ (n : Nat) (es : List (Nat × List Nat)), es.length = n →
      (∀ e ∈ es, (recBytes e).length = bpc) →
      (storeBytes bpc es).length = numBlocks es.length * (16 + bpc * CHANGES_PER_BLOCK) := by
  intro n
  induction n using Nat.strong_induction_on with
  | _ n ih =>
    intro es hlen hrec
    rw [storeBytes]
    by_cases hsm : es.length ≤ CHANGES_PER_BLOCK
    · rw [dif_pos hsm, blockBytes_length hsm hrec, numBlocks_small hsm, Nat.one_mul]
    · rw [dif_neg hsm, List.length_append]
      have h1 : (blockBytes bpc (es.take CHANGES_PER_BLOCK)
          (16 + bpc * CHANGES_PER_BLOCK)).length = 16 + bpc * CHANGES_PER_BLOCK :=
        blockBytes_length (by rw [List.length_take]; omega)
          (fun e he => hrec e (List.mem_of_mem_take he))
      have h2 : (storeBytes bpc (es.drop CHANGES_PER_BLOCK)).length =
          numBlocks (es.drop CHANGES_PER_BLOCK).length * (16 + bpc * CHANGES_PER_BLOCK) :=
        ih (n - CHANGES_PER_BLOCK) (by rw [CPB_eq] at hsm ⊢; omega) _
          (by rw [List.length_drop, hlen]) (fun e he => hrec e (List.mem_of_mem_drop he))
      rw [h1, h2, List.length_drop, numBlocks_step (n := es.length) (by omega)]
      ring

theorem alignUp_add_left8 {a : Nat} (b : Nat) (h : a % 8 = 0) :
    alignUp (a + b) 8 = a + alignUp b 8 := by
  unfold alignUp alignDown
  omega

theorem readLE_append_toLE {A : List Nat} {v k : Nat} (h : v < 256 ^ k) (rest : List Nat) :
    readLE (A ++ (toLE k v ++ rest)) A.length k = v := by
  unfold readLE
  rw [readBytes_append_right' (show A.length = A.length + 0 by omega)]
  exact readLE_toLE_lt h rest

theorem pushDataNonFull_shift (A B : List Nat) (k bpc hl cur : Nat) (payload : List Nat) :
    pushDataNonFull (A ++ B) (A.length + k) bpc hl cur payload =
      A ++ pushDataNonFull B k bpc hl cur payload := by
  simp only [pushDataNonFull]
  rw [show A.length + k + 16 + hl * bpc = A.length + (k + 16 + hl * bpc) by ring,
    writeBytes_append_right,
    show A.length + k + 8 = A.length + (k + 8) by ring,
    writeBytes_append_right,
    show A.length + (k + 16 + hl * bpc) + 4 = A.length + (k + 16 + hl * bpc + 4) by ring,
    writeBytes_append_right]

theorem pushDataFull_shift (A B : List Nat) (k bpc cur : Nat) (payload : List Nat)
    (h8 : A.length % 8 = 0) :
    pushDataFull (A ++ B) (A.length + k) bpc cur payload =
      A ++ pushDataFull B k bpc cur payload := by
  simp only [pushDataFull]
  rw [List.length_append, alignUp_add_left8 B.length h8,
    show A.length + alignUp B.length 8 - (A.length + k) = alignUp B.length 8 - k by omega,
    writeBytes_append_right, List.length_append,
    show A.length + alignUp B.length 8 - (A.length +
      (writeBytes B k (toLE 8 (alignUp B.length 8 - k))).length) =
      alignUp B.length 8 - (writeBytes B k (toLE 8 (alignUp B.length 8 - k))).length by omega,
    List.append_assoc, List.append_assoc, List.append_assoc,
    show A.length + alignUp B.length 8 + 16 = A.length + (alignUp B.length 8 + 16) by ring,
    writeBytes_append_right,
    show A.length + alignUp B.length 8 + 8 = A.length + (alignUp B.length 8 + 8) by ring,
    writeBytes_append_right,
    show A.length + (alignUp B.length 8 + 16) + 4 =
      A.length + (alignUp B.length 8 + 16 + 4) by ring,
    writeBytes_append_right]
  simp [List.append_assoc]

theorem recsBytes_append (a b : List (Nat × List Nat)) :
    recsBytes (a ++ b) = recsBytes a ++ recsBytes b := by
  simp [recsBytes]

/-- Appending one record to a block that still has room, at the byte level. -/
theorem pushNonFull_block {bpc : Nat} (hbpc : 4 ≤ bpc) (es : List (Nat × List Nat))
    (cur : Nat) (payload : List Nat) (_hn : es.length < 128)
    (hrec : ∀ e ∈ es, (recBytes e).length = bpc) (hp : payload.length = bpc - 4) :
    pushDataNonFull (blockBytes bpc es 0) 0 bpc es.length cur payload =
      blockBytes bpc (es ++ [(cur, payload)]) 0 := by
  have hrl : (recsBytes es).length = es.length * bpc := recsBytes_length hrec
  simp only [pushDataNonFull, blockBytes, headerBytes, CPB_eq, Nat.zero_add]
  rw [writeBytes_append_right'
      (show 16 + es.length * bpc =
        ((toLE 8 0 ++ toLE 8 es.length) ++ recsBytes es).length + 0 from by
          simp [toLE_length, hrl]; omega),
    writeBytes_zero, List.drop_replicate, toLE_length,
    List.append_assoc (toLE 8 0 ++ toLE 8 es.length) (recsBytes es),
    List.append_assoc (toLE 8 0) (toLE 8 es.length),
    writeBytes_append_right' (show 8 = (toLE 8 0).length + 0 from by simp [toLE_length]),
    writeBytes_zero,
    List.drop_left' (show (toLE 8 es.length).length = (toLE 8 (es.length + 1)).length from by
      simp [toLE_length]),
    writeBytes_append_right'
      (show 16 + es.length * bpc + 4 =
        (toLE 8 0).length + (8 + (es.length * bpc + 4)) from by simp [toLE_length]; ring),
    writeBytes_append_right'
      (show 8 + (es.length * bpc + 4) =
        (toLE 8 (es.length + 1)).length + (es.length * bpc + 4) from by simp [toLE_length]),
    writeBytes_append_right'
      (show es.length * bpc + 4 = (recsBytes es).length + 4 from by rw [hrl]),
    writeBytes_append_right' (show 4 = (toLE 4 cur).length + 0 from by simp [toLE_length]),
    writeBytes_zero, List.drop_replicate, hp]
  rw [recsBytes_append]
  have hcount : (128 - (es ++ [(cur, payload)]).length) * bpc =
      (128 - es.length) * bpc - 4 - (bpc - 4) := by
    rw [List.length_append, List.length_singleton,
      show 128 - (es.length + 1) = 128 - es.length - 1 from by omega, Nat.sub_mul, Nat.one_mul]
    omega
  rw [hcount]
  simp [recsBytes, recBytes, List.append_assoc]

/-- Overflowing a full block: the byte-level effect is a patched `delta_next`
on the old block plus one fresh block holding the new record. -/
theorem pushFull_block {bpc : Nat} (hbpc : 4 ≤ bpc) (es : List (Nat × List Nat))
    (cur : Nat) (payload : List Nat) (hn : es.length = 128)
    (hrec : ∀ e ∈ es, (recBytes e).length = bpc) (hp : payload.length = bpc - 4) :
    pushDataFull (blockBytes bpc es 0) 0 bpc cur payload =
      blockBytes bpc es (16 + bpc * CHANGES_PER_BLOCK) ++
        blockBytes bpc [(cur, payload)] 0 := by
  have hrl : (recsBytes es).length = es.length * bpc := recsBytes_length hrec
  have hD : blockBytes bpc es 0 = (toLE 8 0 ++ toLE 8 128) ++ recsBytes es := by
    simp [blockBytes, headerBytes, hn, CPB_eq]
  have hXlen : ∀ v : Nat, ((toLE 8 v ++ toLE 8 128) ++ recsBytes es).length = 16 + 128 * bpc := by
    intro v
    simp [toLE_length, hrl, hn]
    omega
  have halign : alignUp (16 + 128 * bpc) 8 = 16 + 128 * bpc := by
    unfold alignUp alignDown
    omega
  simp only [pushDataFull, hD, hXlen, halign, headerBytes, CPB_eq, Nat.zero_add, Nat.sub_zero]
  rw [writeBytes_zero,
    List.append_assoc (toLE 8 0) (toLE 8 128),
    List.drop_left' (show (toLE 8 0).length = (toLE 8 (16 + 128 * bpc)).length from by
      simp [toLE_length])]
  rw [show ((toLE 8 (16 + 128 * bpc) ++ (toLE 8 128 ++ recsBytes es)).length) = 16 + 128 * bpc
      from by simp [toLE_length, hrl, hn]; omega,
    Nat.sub_self, List.replicate_zero, List.append_nil]
  rw [List.append_assoc (toLE 8 (16 + 128 * bpc) ++ (toLE 8 128 ++ recsBytes es))
      (toLE 8 0 ++ toLE 8 0),
    writeBytes_append_right'
      (show 16 + 128 * bpc + 16 =
        (toLE 8 (16 + 128 * bpc) ++ (toLE 8 128 ++ recsBytes es)).length + 16 from by
          simp [toLE_length, hrl, hn]; omega),
    writeBytes_append_right'
      (show (16 : Nat) = (toLE 8 0 ++ toLE 8 0).length + 0 from by simp [toLE_length]),
    writeBytes_zero, List.drop_replicate, toLE_length,
    writeBytes_append_right'
      (show 16 + 128 * bpc + 8 =
        (toLE 8 (16 + 128 * bpc) ++ (toLE 8 128 ++ recsBytes es)).length + 8 from by
          simp [toLE_length, hrl, hn]; omega),
    List.append_assoc (toLE 8 0) (toLE 8 0),
    writeBytes_append_right' (show (8 : Nat) = (toLE 8 0).length + 0 from by simp [toLE_length]),
    writeBytes_zero,
    List.drop_left' (show (toLE 8 0).length = (toLE 8 1).length from by simp [toLE_length]),
    writeBytes_append_right'
      (show 16 + 128 * bpc + 16 + 4 =
        (toLE 8 (16 + 128 * bpc) ++ (toLE 8 128 ++ recsBytes es)).length + (8 + (8 + 4))
        from by simp [toLE_length, hrl, hn]; omega),
    writeBytes_append_right'
      (show 8 + (8 + 4) = (toLE 8 0).length + (8 + 4) from by simp [toLE_length]),
    writeBytes_append_right'
      (show 8 + 4 = (toLE 8 1).length + 4 from by simp [toLE_length]),
    writeBytes_append_right'
      (show (4 : Nat) = (toLE 4 cur).length + 0 from by simp [toLE_length]),
    writeBytes_zero, List.drop_replicate, hp]
  rw [show bpc * 128 - 4 - (bpc - 4) = (128 - 1) * bpc from by
    rw [Nat.sub_mul, Nat.one_mul, Nat.mul_comm bpc 128]; omega]
  simp [blockBytes, headerBytes, recsBytes, recBytes, hn, CPB_eq, List.append_assoc,
    Nat.mul_comm bpc 128]

theorem readLE_append_right' {data suffix : List Nat} {off k klen : Nat}
    (h : off = data.length + k) :
    readLE (data ++ suffix) off klen = readLE suffix k klen := by
  unfold readLE
  rw [readBytes_append_right' h]

theorem numBlocks_pos (n : Nat) : 0 < numBlocks n := Nat.succ_pos _

/-- Peeling one full block off the front of `storeBytes`. -/
theorem storeBytes_peel {b : Nat} {l : List (Nat × List Nat)}
    (h : ¬ l.length ≤ CHANGES_PER_BLOCK) :
    storeBytes b l =
      blockBytes b (l.take CHANGES_PER_BLOCK) (16 + b * CHANGES_PER_BLOCK) ++
        storeBytes b (l.drop CHANGES_PER_BLOCK) := by
  rw [storeBytes, dif_neg h]

/-- The `len` field of the last block of a storage holds the number of its
records. -/
theorem storeBytes_last_header {bpc : Nat} :
    ∀ (n : Nat) (es : List (Nat × List Nat)), es.length = n →
      (∀ e ∈ es, (recBytes e).length = bpc) →
      readLE (storeBytes bpc es)
        ((numBlocks n - 1) * (16 + bpc * CHANGES_PER_BLOCK) + 8) 8 =
        n - CHANGES_PER_BLOCK * (numBlocks n - 1) := by
  intro n
  induction n using Nat.strong_induction_on with
  | _ n ih =>
    intro es hlen hrec
    by_cases hsm : n ≤ 128
    · rw [storeBytes, dif_pos (by rw [CPB_eq]; omega),
        numBlocks_small (by rw [CPB_eq]; omega)]
      simp only [blockBytes, headerBytes, Nat.sub_self, Nat.zero_mul, Nat.zero_add, hlen]
      rw [List.append_assoc, List.append_assoc]
      have h2568 : (256 : Nat) ^ 8 = 18446744073709551616 := by norm_num
      have hr := readLE_append_toLE (A := toLE 8 0) (k := 8) (v := n) (by omega)
        (recsBytes es ++ List.replicate ((CHANGES_PER_BLOCK - n) * bpc) 0)
      rw [toLE_length] at hr
      rw [hr, CPB_eq]
      omega
    · rw [storeBytes_peel (by rw [CPB_eq]; omega)]
      have hA : (blockBytes bpc (es.take CHANGES_PER_BLOCK)
          (16 + bpc * CHANGES_PER_BLOCK)).length = 16 + bpc * CHANGES_PER_BLOCK :=
        blockBytes_length (by rw [List.length_take]; omega)
          (fun e he => hrec e (List.mem_of_mem_take he))
      have hm : numBlocks n - 1 = (numBlocks (n - CHANGES_PER_BLOCK) - 1) + 1 := by
        rw [numBlocks_step (n := n) (by rw [CPB_eq]; omega)]
        have := numBlocks_pos (n - CHANGES_PER_BLOCK)
        omega
      rw [hm, Nat.succ_mul]
      rw [readLE_append_right'
        (show (numBlocks (n - CHANGES_PER_BLOCK) - 1) * (16 + bpc * CHANGES_PER_BLOCK) +
            (16 + bpc * CHANGES_PER_BLOCK) + 8 =
          (blockBytes bpc (es.take CHANGES_PER_BLOCK)
            (16 + bpc * CHANGES_PER_BLOCK)).length +
            ((numBlocks (n - CHANGES_PER_BLOCK) - 1) * (16 + bpc * CHANGES_PER_BLOCK) + 8)
          from by rw [hA]; ring)]
      rw [ih (n - CHANGES_PER_BLOCK) (by rw [CPB_eq]; omega) _
        (by rw [List.length_drop, hlen]) (fun e he => hrec e (List.mem_of_mem_drop he))]
      generalize numBlocks (n - CHANGES_PER_BLOCK) - 1 = q
      rw [CPB_eq]
      omega

/-- `pushDataNonFull` on a whole storage whose last block has room. -/
theorem pushDataNonFull_storeBytes {bpc : Nat} (hbpc : 4 ≤ bpc) :
    ∀ (n : Nat) (es : List (Nat × List Nat)) (cur : Nat) (payload : List Nat),
      es.length = n → (∀ e ∈ es, (recBytes e).length = bpc) →
      payload.length = bpc - 4 → n % 128 ≠ 0 ∨ n = 0 →
      pushDataNonFull (storeBytes bpc es)
          ((numBlocks n - 1) * (16 + bpc * CHANGES_PER_BLOCK)) bpc
          (n - CHANGES_PER_BLOCK * (numBlocks n - 1)) cur payload =
        storeBytes bpc (es ++ [(cur, payload)]) := by
  intro n
  induction n using Nat.strong_induction_on with
  | _ n ih =>
    intro es cur payload hlen hrec hp hnf
    by_cases hsm : n ≤ 128
    · have hlt : n < 128 := by omega
      rw [storeBytes, dif_pos (by rw [CPB_eq]; omega),
        storeBytes, dif_pos (by simp [CPB_eq]; omega),
        numBlocks_small (by rw [CPB_eq]; omega)]
      simp only [Nat.sub_self, Nat.zero_mul, Nat.mul_zero, Nat.sub_zero]
      rw [show n = es.length from hlen.symm]
      exact pushNonFull_block hbpc es cur payload (by omega) hrec hp
    · rw [storeBytes_peel (by rw [CPB_eq]; omega)]
      have hA : (blockBytes bpc (es.take CHANGES_PER_BLOCK)
          (16 + bpc * CHANGES_PER_BLOCK)).length = 16 + bpc * CHANGES_PER_BLOCK :=
        blockBytes_length (by rw [List.length_take]; omega)
          (fun e he => hrec e (List.mem_of_mem_take he))
      have hm : numBlocks n - 1 = (numBlocks (n - CHANGES_PER_BLOCK) - 1) + 1 := by
        rw [numBlocks_step (n := n) (by rw [CPB_eq]; omega)]
        have := numBlocks_pos (n - CHANGES_PER_BLOCK)
        omega
      rw [hm, Nat.succ_mul,
        show (numBlocks (n - CHANGES_PER_BLOCK) - 1) * (16 + bpc * CHANGES_PER_BLOCK) +
            (16 + bpc * CHANGES_PER_BLOCK) =
          (blockBytes bpc (es.take CHANGES_PER_BLOCK)
            (16 + bpc * CHANGES_PER_BLOCK)).length +
            ((numBlocks (n - CHANGES_PER_BLOCK) - 1) * (16 + bpc * CHANGES_PER_BLOCK))
          from by rw [hA]; ring,
        pushDataNonFull_shift]
      have hhl : n - CHANGES_PER_BLOCK * ((numBlocks (n - CHANGES_PER_BLOCK) - 1) + 1) =
          n - CHANGES_PER_BLOCK -
            CHANGES_PER_BLOCK * (numBlocks (n - CHANGES_PER_BLOCK) - 1) := by
        rw [CPB_eq]
        omega
      have hnf' : (n - CHANGES_PER_BLOCK) % 128 ≠ 0 ∨ n - CHANGES_PER_BLOCK = 0 := by
        rw [CPB_eq]
        rcases hnf with h | h
        · left; omega
        · omega
      have hIH := ih (n - CHANGES_PER_BLOCK) (by rw [CPB_eq]; omega)
        (es.drop CHANGES_PER_BLOCK) cur payload (by rw [List.length_drop, hlen])
        (fun e he => hrec e (List.mem_of_mem_drop he)) hp hnf'
      rw [hhl, hIH]
      rw [storeBytes_peel (l := es ++ [(cur, payload)]) (by simp [CPB_eq]; omega),
        List.take_append_of_le_length (by rw [CPB_eq]; omega),
        List.drop_append_of_le_length (by rw [CPB_eq]; omega)]

/-- `pushDataFull` on a whole storage whose last block is full. -/
theorem pushDataFull_storeBytes {bpc : Nat} (hbpc : 4 ≤ bpc) :
    ∀ (n : Nat) (es : List (Nat × List Nat)) (cur : Nat) (payload : List Nat),
      es.length = n → (∀ e ∈ es, (recBytes e).length = bpc) →
      payload.length = bpc - 4 → n % 128 = 0 → n ≠ 0 →
      pushDataFull (storeBytes bpc es)
          ((numBlocks n - 1) * (16 + bpc * CHANGES_PER_BLOCK)) bpc cur payload =
        storeBytes bpc (es ++ [(cur, payload)]) := by
  intro n
  induction n using Nat.strong_induction_on with
  | _ n ih =>
    intro es cur payload hlen hrec hp hmod hne
    by_cases hsm : n ≤ 128
    · have h128 : n = 128 := by omega
      rw [storeBytes, dif_pos (by rw [CPB_eq]; omega),
        numBlocks_small (by rw [CPB_eq]; omega)]
      simp only [Nat.sub_self, Nat.zero_mul]
      rw [pushFull_block hbpc es cur payload (by omega) hrec hp,
        storeBytes_peel (l := es ++ [(cur, payload)]) (by simp [CPB_eq]; omega),
        List.take_append_of_le_length (by rw [CPB_eq]; omega),
        List.take_of_length_le (by rw [CPB_eq]; omega),
        List.drop_left' (show es.length = CHANGES_PER_BLOCK from by rw [CPB_eq]; omega),
        storeBytes, dif_pos (by simp [CPB_eq])]
    · rw [storeBytes_peel (by rw [CPB_eq]; omega)]
      have hA : (blockBytes bpc (es.take CHANGES_PER_BLOCK)
          (16 + bpc * CHANGES_PER_BLOCK)).length = 16 + bpc * CHANGES_PER_BLOCK :=
        blockBytes_length (by rw [List.length_take]; omega)
          (fun e he => hrec e (List.mem_of_mem_take he))
      have hm : numBlocks n - 1 = (numBlocks (n - CHANGES_PER_BLOCK) - 1) + 1 := by
        rw [numBlocks_step (n := n) (by rw [CPB_eq]; omega)]
        have := numBlocks_pos (n - CHANGES_PER_BLOCK)
        omega
      rw [hm, Nat.succ_mul,
        show (numBlocks (n - CHANGES_PER_BLOCK) - 1) * (16 + bpc * CHANGES_PER_BLOCK) +
            (16 + bpc * CHANGES_PER_BLOCK) =
          (blockBytes bpc (es.take CHANGES_PER_BLOCK)
            (16 + bpc * CHANGES_PER_BLOCK)).length +
            ((numBlocks (n - CHANGES_PER_BLOCK) - 1) * (16 + bpc * CHANGES_PER_BLOCK))
          from by rw [hA]; ring,
        pushDataFull_shift _ _ _ _ _ _ (by rw [hA, CPB_eq]; omega)]
      have hIH := ih (n - CHANGES_PER_BLOCK) (by rw [CPB_eq]; omega)
        (es.drop CHANGES_PER_BLOCK) cur payload (by rw [List.length_drop, hlen])
        (fun e he => hrec e (List.mem_of_mem_drop he)) hp
        (by rw [CPB_eq]; omega) (by rw [CPB_eq]; omega)
      rw [hIH]
      rw [storeBytes_peel (l := es ++ [(cur, payload)]) (by simp [CPB_eq]; omega),
        List.take_append_of_le_length (by rw [CPB_eq]; omega),
        List.drop_append_of_le_length (by rw [CPB_eq]; omega)]

/-- `push_change` on the abstract single-storage state appends one record. -/
theorem push_change_absState (PB width : Nat)
    (es : List (Nat × List Nat)) (T : List Nat) (cur : Nat) (payload : List Nat)
    (hrec : ∀ e ∈ es, (recBytes e).length = 4 + (width + PB - 1) / PB)
    (hp : payload.length = (width + PB - 1) / PB) :
    push_change (absState PB width es T cur) 0 payload =
      some (absState PB width (es ++ [(cur, payload)]) T cur) := by
  have hbpc : 4 ≤ 4 + (width + PB - 1) / PB := by omega
  have hp' : payload.length = 4 + (width + PB - 1) / PB - 4 := by omega
  have hl := @storeBytes_last_header (4 + (width + PB - 1) / PB) es.length es rfl hrec
  simp only [push_change, absState, List.getD_cons_zero]
  rw [hl]
  by_cases hfull : es.length - CHANGES_PER_BLOCK * (numBlocks es.length - 1) =
      CHANGES_PER_BLOCK
  · rw [if_pos hfull]
    have hmod : es.length % 128 = 0 := by
      rw [numBlocks, CPB_eq] at hfull
      omega
    have hne : es.length ≠ 0 := by
      rw [numBlocks, CPB_eq] at hfull
      omega
    rw [pushDataFull_storeBytes hbpc es.length es cur payload rfl hrec hp' hmod hne]
    have hso : (storeBytes (4 + (width + PB - 1) / PB) es).length =
        numBlocks es.length * (16 + (4 + (width + PB - 1) / PB) * CHANGES_PER_BLOCK) :=
      storeBytes_length es.length es rfl hrec
    have hnb : numBlocks (es ++ [(cur, payload)]).length - 1 = numBlocks es.length := by
      rw [List.length_append, List.length_singleton, numBlocks, numBlocks, CPB_eq]
      omega
    simp only [List.set_cons_zero, hso, hnb]
    simp
  · rw [if_neg hfull]
    have hnf : es.length % 128 ≠ 0 ∨ es.length = 0 := by
      rw [numBlocks, CPB_eq] at hfull
      by_cases h0 : es.length = 0
      · right; exact h0
      · left; omega
    rw [pushDataNonFull_storeBytes hbpc es.length es cur payload rfl hrec hp' hnf]
    have hnb : numBlocks (es ++ [(cur, payload)]).length - 1 = numBlocks es.length - 1 := by
      rw [List.length_append, List.length_singleton, numBlocks, numBlocks, CPB_eq] at *
      rcases hnf with h | h <;> omega
    simp only [List.set_cons_zero, hnb]
    simp


/-- Declaring storage 0 on a fresh list produces the empty abstract state. -/
theorem add_storage_absState (PB width : Nat) :
    add_storage new_in 0 PB width = absState PB width [] [] 0 := by
  simp [add_storage, new_in, absState, storeBytes, blockBytes, recsBytes, numBlocks,
    CPB_eq, alignUp, alignDown, Nat.mul_comm]

/-- `push_timesteps` on the abstract state. -/
theorem push_timesteps_absState (PB width : Nat) (es : List (Nat × List Nat))
    (T : List Nat) (cur t : Nat) :
    push_timesteps (absState PB width es T cur) t =
      absState PB width es (T ++ [t]) T.length := rfl

/-- Running a trace from an abstract state lands in the abstract state of the
`specRun` of the trace. -/
theorem runOps_absState (PB width : Nat) :
    ∀ (ops : List WOp) (es : List (Nat × List Nat)) (T : List Nat) (cur : Nat),
      (∀ p, WOp.ch p ∈ ops → p.length = (width + PB - 1) / PB) →
      (∀ e ∈ es, (recBytes e).length = 4 + (width + PB - 1) / PB) →
      runOps (absState PB width es T cur) ops =
        some (absState PB width (specRun ops (es, T, cur)).1
          (specRun ops (es, T, cur)).2.1 (specRun ops (es, T, cur)).2.2) := by
  intro ops
  induction ops with
  | nil => intro es T cur _ _; rfl
  | cons o rest ih =>
    intro es T cur hops hes
    cases o with
    | ts t =>
      show runOps (push_timesteps _ t) rest = _
      rw [push_timesteps_absState,
        ih es (T ++ [t]) T.length (fun p hp => hops p (by simp [hp])) hes]
      rfl
    | ch p =>
      show (push_change _ 0 p).bind _ = _
      rw [push_change_absState PB width es T cur p hes (hops p (by simp))]
      rw [Option.some_bind]
      have hes' : ∀ e ∈ es ++ [(cur, p)], (recBytes e).length = 4 + (width + PB - 1) / PB := by
        intro e he
        rcases List.mem_append.mp he with h | h
        · exact hes e h
        · rw [List.mem_singleton] at h
          subst h
          simp [recBytes, toLE_length, hops p (by simp)]
      rw [ih (es ++ [(cur, p)]) T cur (fun q hq => hops q (by simp [hq])) hes']
      rfl

/-- Iterating while the block has records left and the count runs out inside
the block. -/
theorem iterOffsets_inBlock (data : List Nat) (o b : Nat) :
    ∀ (rem i fuel : Nat), rem ≤ fuel → rem + i ≤ CHANGES_PER_BLOCK → i < CHANGES_PER_BLOCK →
      iterOffsets data ⟨o, rem, i, b⟩ fuel =
        some ((List.range rem).map (fun t => o + 16 + b * (i + t))) := by
  intro rem
  induction rem with
  | zero =>
    intro i fuel _ _ _
    cases fuel <;> simp [iterOffsets]
  | succ c ih =>
    intro i fuel hf hcap hi
    match fuel, hf with
    | f + 1, hf =>
      simp only [iterOffsets]
      rw [if_pos (by omega), if_neg (by omega : ¬ i = CHANGES_PER_BLOCK)]
      by_cases hi1 : i + 1 < CHANGES_PER_BLOCK
      · rw [show c + 1 - 1 = c from rfl, ih (i + 1) f (by omega) (by omega) hi1]
        rw [List.range_succ_eq_map]
        simp only [Option.map_some', List.map_cons, List.map_map]
        refine congrArg some ?_
        refine List.cons_eq_cons.mpr ⟨rfl, ?_⟩
        apply List.map_congr_left
        intro t _
        simp only [Function.comp_apply, Nat.succ_eq_add_one]
        ring_nf
      · have hc0 : c = 0 := by omega
        subst hc0
        cases f <;> simp [iterOffsets, List.range_succ]

/-- Iterating through the tail of the current block and continuing from the
pre-jump state. -/
theorem iterOffsets_inBlock_cont (data : List Nat) (o b : Nat) :
    ∀ (c i rem fuel : Nat), i + c = CHANGES_PER_BLOCK → c ≤ rem → c ≤ fuel →
      iterOffsets data ⟨o, rem, i, b⟩ fuel =
        (iterOffsets data ⟨o, rem - c, CHANGES_PER_BLOCK, b⟩ (fuel - c)).map
          (fun l => ((List.range c).map (fun t => o + 16 + b * (i + t))) ++ l) := by
  intro c
  induction c with
  | zero =>
    intro i rem fuel hc _ _
    have hi : i = CHANGES_PER_BLOCK := by omega
    subst hi
    cases h : iterOffsets data ⟨o, rem, CHANGES_PER_BLOCK, b⟩ fuel <;> simp [h]
  | succ c ih =>
    intro i rem fuel hc hrem hfuel
    match fuel, hfuel with
    | f + 1, hfuel =>
      simp only [iterOffsets]
      rw [if_pos (by omega), if_neg (by rw [CPB_eq] at hc ⊢; omega)]
      rw [ih (i + 1) (rem - 1) f (by omega) (by omega) (by omega)]
      rw [show rem - 1 - c = rem - (c + 1) from by omega,
        show f - c = f + 1 - (c + 1) from by omega]
      cases iterOffsets data ⟨o, rem - (c + 1), CHANGES_PER_BLOCK, b⟩ (f + 1 - (c + 1)) with
      | none => simp
      | some l =>
        simp only [Option.map_some']
        rw [List.range_succ_eq_map, List.map_cons, List.map_map, List.cons_append]
        refine congrArg some ?_
        refine List.cons_eq_cons.mpr ⟨rfl, ?_⟩
        refine congrArg (fun x => x ++ l) ?_
        apply List.map_congr_left
        intro t _
        simp only [Function.comp_apply, Nat.succ_eq_add_one]
        ring_nf

/-- Iteration over a store that sits after a prefix visits the offsets of the
standalone store, shifted by the prefix length. -/
theorem iterOffsets_shift (A B : List Nat) :
    ∀ (fuel k r i b : Nat),
      iterOffsets (A ++ B) ⟨A.length + k, r, i, b⟩ fuel =
        (iterOffsets B ⟨k, r, i, b⟩ fuel).map (List.map (fun x => A.length + x)) := by
  intro fuel
  induction fuel with
  | zero => intro k r i b; simp [iterOffsets]
  | succ f ih =>
    intro k r i b
    simp only [iterOffsets]
    by_cases hr : 0 < r
    · rw [if_pos hr, if_pos hr]
      by_cases hi : i = CHANGES_PER_BLOCK
      · rw [if_pos hi, if_pos hi]
        rw [readLE_append_right' rfl]
        by_cases hd : readLE B k 8 = 0
        · rw [if_pos hd, if_pos hd]
          simp
        · rw [if_neg hd, if_neg hd]
          rw [show A.length + k + readLE B k 8 = A.length + (k + readLE B k 8) from by ring]
          rw [ih (k + readLE B k 8) (r - 1) (0 + 1) b]
          cases iterOffsets B ⟨k + readLE B k 8, r - 1, 0 + 1, b⟩ f <;>
            simp [Nat.add_assoc]
      · rw [if_neg hi, if_neg hi]
        rw [ih k (r - 1) (i + 1) b]
        cases iterOffsets B ⟨k, r - 1, i + 1, b⟩ f <;> simp [Nat.add_assoc]
    · rw [if_neg hr, if_neg hr]
      simp

/-- Offset of a record inside the first block. -/
theorem recOff_lt_block {bpc j : Nat} (h : j < CHANGES_PER_BLOCK) :
    recOff bpc j = 16 + bpc * j := by
  simp only [recOff]
  rw [Nat.div_eq_of_lt h, Nat.mod_eq_of_lt h]
  ring

/-- Skipping one full block advances a record offset by the block size. -/
theorem recOff_add_block (bpc t : Nat) :
    recOff bpc (CHANGES_PER_BLOCK + t) =
      (16 + bpc * CHANGES_PER_BLOCK) + recOff bpc t := by
  have hpos : 0 < CHANGES_PER_BLOCK := by rw [CPB_eq]; omega
  simp only [recOff]
  rw [Nat.add_comm CHANGES_PER_BLOCK t, Nat.add_div_right _ hpos, Nat.add_mod_right]
  ring

/-- The first eight bytes of a serialized block hold its `delta_next` field. -/
theorem blockBytes_delta {bpc d : Nat} (recs : List (Nat × List Nat)) (X : List Nat)
    (h : d < 256 ^ 8) :
    readLE (blockBytes bpc recs d ++ X) 0 8 = d := by
  simp only [blockBytes, headerBytes, List.append_assoc]
  exact readLE_toLE_lt h _

/-- Iterating a whole single-storage byte store visits exactly the record
offsets, in push order. -/
theorem iterOffsets_storeBytes {bpc : Nat}
    (hdlt : 16 + bpc * CHANGES_PER_BLOCK < 256 ^ 8) :
    ∀ (n : Nat) (es : List (Nat × List Nat)), es.length = n →
      (∀ e ∈ es, (recBytes e).length = bpc) →
      iterOffsets (storeBytes bpc es) ⟨0, n, 0, bpc⟩ n =
        some ((List.range n).map (recOff bpc)) := by
  intro n
  induction n using Nat.strong_induction_on with
  | _ n ih =>
    intro es hlen hrec
    by_cases hsm : n ≤ 128
    · rw [iterOffsets_inBlock _ 0 bpc n 0 n (le_refl n) (by rw [CPB_eq]; omega)
        (by rw [CPB_eq]; omega)]
      refine congrArg some ?_
      apply List.map_congr_left
      intro t ht
      rw [List.mem_range] at ht
      rw [recOff_lt_block (by rw [CPB_eq]; omega)]
      ring
    · obtain ⟨m, hm⟩ : ∃ m, n - CHANGES_PER_BLOCK = m + 1 :=
        ⟨n - CHANGES_PER_BLOCK - 1, by rw [CPB_eq]; omega⟩
      rw [storeBytes_peel (by rw [CPB_eq]; omega)]
      obtain ⟨A, hAdef⟩ : ∃ A, blockBytes bpc (es.take CHANGES_PER_BLOCK)
          (16 + bpc * CHANGES_PER_BLOCK) = A := ⟨_, rfl⟩
      obtain ⟨R, hRdef⟩ : ∃ R, storeBytes bpc (es.drop CHANGES_PER_BLOCK) = R := ⟨_, rfl⟩
      rw [hAdef, hRdef]
      have hA : A.length = 16 + bpc * CHANGES_PER_BLOCK := by
        rw [← hAdef]
        exact blockBytes_length (by rw [List.length_take, CPB_eq]; omega)
          (fun e he => hrec e (List.mem_of_mem_take he))
      have hread : readLE (A ++ R) 0 8 = 16 + bpc * CHANGES_PER_BLOCK := by
        rw [← hAdef]
        exact blockBytes_delta _ _ hdlt
      have hIH : iterOffsets R ⟨0, m + 1, 0, bpc⟩ (m + 1) =
          some ((List.range (m + 1)).map (recOff bpc)) := by
        rw [← hRdef, ← hm]
        exact ih (n - CHANGES_PER_BLOCK) (by rw [CPB_eq]; omega) _
          (by rw [List.length_drop, hlen]) (fun e he => hrec e (List.mem_of_mem_drop he))
      have hstep : iterOffsets R ⟨0, m + 1, 0, bpc⟩ (m + 1) =
          (iterOffsets R ⟨0, m, 0 + 1, bpc⟩ m).map (fun l => (0 + 16 + bpc * 0) :: l) := by
        simp only [iterOffsets]
        rw [if_pos (Nat.succ_pos m), if_neg (show ¬ (0 = CHANGES_PER_BLOCK) from by
          rw [CPB_eq]; omega)]
        simp only [Nat.add_sub_cancel]
      have hjump : iterOffsets (A ++ R) ⟨0, m + 1, CHANGES_PER_BLOCK, bpc⟩ (m + 1) =
          (iterOffsets (A ++ R) ⟨0 + (16 + bpc * CHANGES_PER_BLOCK), m, 0 + 1, bpc⟩ m).map
            (fun l => (0 + (16 + bpc * CHANGES_PER_BLOCK) + 16 + bpc * 0) :: l) := by
        simp only [iterOffsets]
        rw [if_pos (Nat.succ_pos m), if_pos trivial, hread,
          if_neg (show ¬ (16 + bpc * CHANGES_PER_BLOCK = 0) from by omega)]
        simp only [Nat.add_sub_cancel]
      cases htl : iterOffsets R ⟨0, m, 0 + 1, bpc⟩ m with
      | none =>
        rw [hstep, htl] at hIH
        simp at hIH
      | some tl =>
        rw [hstep, htl] at hIH
        simp only [Option.map_some', Option.some.injEq] at hIH
        rw [iterOffsets_inBlock_cont (A ++ R) 0 bpc CHANGES_PER_BLOCK 0 n n rfl
          (by rw [CPB_eq]; omega) (by rw [CPB_eq]; omega)]
        rw [hm, hjump]
        rw [show (0 + (16 + bpc * CHANGES_PER_BLOCK)) = A.length + 0 from by rw [hA]; ring]
        rw [iterOffsets_shift A R m 0 m (0 + 1) bpc, htl]
        simp only [Option.map_some']
        refine congrArg some ?_
        rw [show n = CHANGES_PER_BLOCK + (m + 1) from by rw [CPB_eq] at *; omega]
        rw [List.range_add, List.map_append, List.map_map]
        refine congrArg₂ (fun a b => a ++ b) ?_ ?_
        · apply List.map_congr_left
          intro t ht
          rw [List.mem_range] at ht
          rw [recOff_lt_block ht]
          ring
        · have hfun : ∀ t ∈ List.range (m + 1),
              (recOff bpc ∘ fun x => CHANGES_PER_BLOCK + x) t =
                ((fun x => A.length + x) ∘ recOff bpc) t := by
            intro t _
            simp only [Function.comp_apply]
            rw [recOff_add_block bpc t, hA]
          rw [List.map_congr_left hfun, ← List.map_map, ← hIH]
          simp only [List.map_cons]
          refine List.cons_eq_cons.mpr ⟨by ring, rfl⟩

/-- `getD` through `take`. -/
theorem getD_take (a : Nat × List Nat) :
    ∀ (l : List (Nat × List Nat)) (k j : Nat), j < k →
      (l.take k).getD j a = l.getD j a := by
  intro l
  induction l with
  | nil => intro k j _; simp
  | cons e rest ih =>
    intro k j h
    cases k with
    | zero => omega
    | succ k =>
      cases j with
      | zero => simp
      | succ j =>
        rw [List.take_succ_cons, List.getD_cons_succ, List.getD_cons_succ]
        exact ih k j (by omega)

/-- `getD` through `drop`. -/
theorem getD_drop (a : Nat × List Nat) :
    ∀ (l : List (Nat × List Nat)) (k j : Nat),
      (l.drop k).getD j a = l.getD (k + j) a := by
  intro l
  induction l with
  | nil => intro k j; simp
  | cons e rest ih =>
    intro k j
    cases k with
    | zero => simp
    | succ k =>
      rw [List.drop_succ_cons, ih k j, show k + 1 + j = k + j + 1 from by omega,
        List.getD_cons_succ]

/-- Reading record `j` out of a dense record area. -/
theorem recsBytes_read {bpc : Nat} :
    ∀ (recs : List (Nat × List Nat)), (∀ e ∈ recs, (recBytes e).length = bpc) →
      ∀ (j : Nat), j < recs.length → ∀ (X : List Nat),
        readBytes (recsBytes recs ++ X) (bpc * j) bpc =
          recBytes (recs.getD j (0, [])) := by
  intro recs
  induction recs with
  | nil => intro _ j hj; simp at hj
  | cons e rest ih =>
    intro hrec j hj X
    have he : (recBytes e).length = bpc := hrec e (by simp)
    simp only [recsBytes, List.map_cons, List.flatten_cons]
    cases j with
    | zero =>
      rw [List.append_assoc, Nat.mul_zero,
        readBytes_append_left (show (0 : Nat) + bpc ≤ (recBytes e).length from by omega)]
      unfold readBytes
      rw [List.drop_zero, List.take_of_length_le (by omega)]
      simp
    | succ j =>
      rw [List.append_assoc,
        readBytes_append_right'
          (show bpc * (j + 1) = (recBytes e).length + bpc * j from by rw [he]; ring),
        List.getD_cons_succ]
      exact ih (fun x hx => hrec x (by simp [hx])) j (by simpa using hj) _

/-- Reading record `j` out of a serialized block. -/
theorem blockBytes_read {bpc d : Nat} (recs : List (Nat × List Nat))
    (hrec : ∀ e ∈ recs, (recBytes e).length = bpc) (j : Nat) (hj : j < recs.length)
    (X : List Nat) :
    readBytes (blockBytes bpc recs d ++ X) (16 + bpc * j) bpc =
      recBytes (recs.getD j (0, [])) := by
  simp only [blockBytes, List.append_assoc]
  rw [readBytes_append_right'
    (show 16 + bpc * j = (headerBytes d recs.length).length + bpc * j from by
      rw [headerBytes_length])]
  exact recsBytes_read recs hrec j hj _

/-- Reading record `j` out of a whole single-storage byte store. -/
theorem storeBytes_read {bpc : Nat} :
    ∀ (n : Nat) (es : List (Nat × List Nat)), es.length = n →
      (∀ e ∈ es, (recBytes e).length = bpc) →
      ∀ j, j < n →
        readBytes (storeBytes bpc es) (recOff bpc j) bpc =
          recBytes (es.getD j (0, [])) := by
  intro n
  induction n using Nat.strong_induction_on with
  | _ n ih =>
    intro es hlen hrec j hj
    have hc := CPB_eq
    by_cases hsm : n ≤ 128
    · rw [storeBytes, dif_pos (by omega), recOff_lt_block (by omega)]
      rw [show blockBytes bpc es 0 = blockBytes bpc es 0 ++ [] from
        (List.append_nil _).symm]
      exact blockBytes_read es hrec j (by omega) []
    · rw [storeBytes_peel (by omega)]
      by_cases hjb : j < CHANGES_PER_BLOCK
      · rw [recOff_lt_block hjb]
        rw [blockBytes_read (es.take CHANGES_PER_BLOCK)
          (fun e he => hrec e (List.mem_of_mem_take he)) j
          (by rw [List.length_take, hlen]; omega) _]
        rw [getD_take _ _ _ _ hjb]
      · obtain ⟨t, ht⟩ : ∃ t, j = CHANGES_PER_BLOCK + t := ⟨j - CHANGES_PER_BLOCK, by omega⟩
        subst ht
        have hA : (blockBytes bpc (es.take CHANGES_PER_BLOCK)
            (16 + bpc * CHANGES_PER_BLOCK)).length = 16 + bpc * CHANGES_PER_BLOCK :=
          blockBytes_length (by rw [List.length_take, hlen]; omega)
            (fun e he => hrec e (List.mem_of_mem_take he))
        rw [recOff_add_block,
          readBytes_append_right' (show (16 + bpc * CHANGES_PER_BLOCK) + recOff bpc t =
            (blockBytes bpc (es.take CHANGES_PER_BLOCK)
              (16 + bpc * CHANGES_PER_BLOCK)).length + recOff bpc t from by rw [hA])]
        rw [ih (n - CHANGES_PER_BLOCK) (by omega) _ (by rw [List.length_drop, hlen])
          (fun e he => hrec e (List.mem_of_mem_drop he)) t (by omega)]
        rw [getD_drop]

/-- Decoding record `j` of a single-storage store: `get_change` recovers the
timestep value and the packed payload of the `j`-th push. -/
theorem get_change_storeBytes {PB width : Nat} (es : List (Nat × List Nat)) (T : List Nat)
    (hrec : ∀ e ∈ es, (recBytes e).length = 4 + (width + PB - 1) / PB)
    (j : Nat) (hj : j < es.length)
    (hts : (es.getD j (0, [])).1 < T.length)
    (hT : T.length ≤ 2 ^ 32) :
    get_change (storeBytes (4 + (width + PB - 1) / PB) es) T
        (recOff (4 + (width + PB - 1) / PB) j) width PB =
      some (T.getD (es.getD j (0, [])).1 0, (es.getD j (0, [])).2) := by
  have hmem : es.getD j (0, []) ∈ es := by
    rw [List.getD_eq_getElem _ _ hj]
    exact List.getElem_mem hj
  have htot : (recBytes (es.getD j (0, []))).length = 4 + (width + PB - 1) / PB :=
    hrec _ hmem
  have hsplit := storeBytes_read es.length es rfl hrec j hj
  obtain ⟨r1, hr1⟩ : ∃ r1, readBytes (storeBytes (4 + (width + PB - 1) / PB) es)
      (recOff (4 + (width + PB - 1) / PB) j) 4 = r1 := ⟨_, rfl⟩
  obtain ⟨r2, hr2⟩ : ∃ r2, readBytes (storeBytes (4 + (width + PB - 1) / PB) es)
      (recOff (4 + (width + PB - 1) / PB) j + 4) ((width + PB - 1) / PB) = r2 := ⟨_, rfl⟩
  have hsplit2 := readBytes_readBytes_split (storeBytes (4 + (width + PB - 1) / PB) es)
    (recOff (4 + (width + PB - 1) / PB) j) 4 ((width + PB - 1) / PB)
  rw [hsplit, hr1, hr2] at hsplit2
  have hlen1 : r1.length ≤ 4 := by
    rw [← hr1]
    unfold readBytes
    exact List.length_take_le _ _
  have hlen2 : r2.length ≤ (width + PB - 1) / PB := by
    rw [← hr2]
    unfold readBytes
    exact List.length_take_le _ _
  have hlens : r1.length = 4 := by
    have hl := congrArg List.length hsplit2
    rw [htot, List.length_append] at hl
    omega
  simp only [recBytes] at hsplit2
  obtain ⟨h1, h2⟩ := List.append_inj hsplit2 (by rw [toLE_length, hlens])
  simp only [get_change]
  rw [show readLE (storeBytes (4 + (width + PB - 1) / PB) es)
      (recOff (4 + (width + PB - 1) / PB) j) 4 = (es.getD j (0, [])).1 from by
    unfold readLE
    rw [hr1, ← h1]
    exact fromLE_toLE_of_lt (show (es.getD j (0, [])).1 < 256 ^ 4 from by
      have h4 : (256 : Nat) ^ 4 = 2 ^ 32 := by norm_num
      omega)]
  rw [List.getElem?_eq_getElem hts]
  rw [hr2, ← h2, List.getD_eq_getElem T 0 hts]

/-- `mapM` over a mapped list on which the function is pointwise `some`. -/
theorem mapM_map_eq_of_some {α β γ : Type} (f : α → β) (F : β → Option γ) (g : α → γ) :
    ∀ (l : List α), (∀ x ∈ l, F (f x) = some (g x)) →
      (l.map f).mapM F = some (l.map g) := by
  intro l
  induction l with
  | nil => intro _; rfl
  | cons x xs ih =>
    intro h
    rw [List.map_cons, List.mapM_cons, h x (by simp),
      ih (fun y hy => h y (by simp [hy]))]
    rfl

/-- Mapping a position-indexed lookup over `range` recovers a plain `map`. -/
theorem range_map_getD {β : Type} (h : Nat × List Nat → β) :
    ∀ (l : List (Nat × List Nat)),
      (List.range l.length).map (fun j => h (l.getD j (0, []))) = l.map h := by
  intro l
  induction l with
  | nil => simp
  | cons e rest ih =>
    rw [List.length_cons, List.range_succ_eq_map, List.map_cons, List.map_map]
    rw [show ((fun j => h ((e :: rest).getD j (0, []))) ∘ Nat.succ) =
        (fun j => h (rest.getD j (0, []))) from by
      funext t
      simp [Function.comp, List.getD_cons_succ]]
    rw [ih]
    simp

/-- The cumulative effect of a trace on the abstract record list, timestep
table and current index, together with the well-formedness facts the decoding
needs.  `L` is any property of the pushed payloads; `o` is the most recently
pushed timestep value, if any. -/
theorem specRun_spec (L : List Nat → Prop) :
    ∀ (ops : List WOp) (es : List (Nat × List Nat)) (T : List Nat) (cur : Nat)
      (o : Option Nat),
      (∀ e ∈ es, e.1 < T.length) →
      (∀ e ∈ es, L e.2) →
      (∀ p, WOp.ch p ∈ ops → L p) →
      ((T = [] ∧ o = none) ∨ (cur < T.length ∧ o = some (T.getD cur 0))) →
      (tsLeads ops = true ∨ T ≠ []) →
      (specRun ops (es, T, cur)).2.1 = T ++ tsValues ops ∧
      (∀ e ∈ (specRun ops (es, T, cur)).1, e.1 < (specRun ops (es, T, cur)).2.1.length) ∧
      (∀ e ∈ (specRun ops (es, T, cur)).1, L e.2) ∧
      (specRun ops (es, T, cur)).1.map
          (fun e => ((specRun ops (es, T, cur)).2.1.getD e.1 0, e.2)) =
        es.map (fun e => ((specRun ops (es, T, cur)).2.1.getD e.1 0, e.2)) ++
          expectedChanges ops o ∧
      (specRun ops (es, T, cur)).1.length = es.length + (chPayloads ops).length := by
  intro ops
  induction ops with
  | nil =>
    intro es T cur o hlt hL _ _ _
    exact ⟨by simp [specRun, tsValues], hlt, hL,
      by simp [specRun, expectedChanges], by simp [specRun, chPayloads]⟩
  | cons op rest ih =>
    intro es T cur o hlt hL hops hcur hlead
    cases op with
    | ts t =>
      have hlt' : ∀ e ∈ es, e.1 < (T ++ [t]).length := by
        intro e he
        rw [List.length_append]
        have := hlt e he
        simp
        omega
      have hcur' : ((T ++ [t]) = [] ∧ some t = none) ∨
          (T.length < (T ++ [t]).length ∧
            some t = some ((T ++ [t]).getD T.length 0)) := by
        right
        constructor
        · simp
        · rw [List.getD_append_right _ _ _ _ (le_refl _), Nat.sub_self]
          rfl
      obtain ⟨hT, hlt2, hL2, hmap, hlen⟩ := ih es (T ++ [t]) T.length (some t) hlt' hL
        (fun p hp => hops p (by simp [hp])) hcur' (Or.inr (by simp))
      refine ⟨?_, hlt2, hL2, ?_, ?_⟩
      · show (specRun rest (es, T ++ [t], T.length)).2.1 = T ++ tsValues (WOp.ts t :: rest)
        rw [hT, List.append_assoc]
        simp [tsValues, List.filterMap_cons]
      · exact hmap
      · simpa [chPayloads, List.filterMap_cons] using hlen
    | ch p =>
      have hTne : T ≠ [] := by
        rcases hlead with h | h
        · simp [tsLeads] at h
        · exact h
      obtain ⟨hcl, ho⟩ : cur < T.length ∧ o = some (T.getD cur 0) := by
        rcases hcur with ⟨h1, _⟩ | h
        · exact absurd h1 hTne
        · exact h
      have hlt' : ∀ e ∈ es ++ [(cur, p)], e.1 < T.length := by
        intro e he
        rcases List.mem_append.mp he with h | h
        · exact hlt e h
        · rw [List.mem_singleton] at h
          subst h
          exact hcl
      have hL' : ∀ e ∈ es ++ [(cur, p)], L e.2 := by
        intro e he
        rcases List.mem_append.mp he with h | h
        · exact hL e h
        · rw [List.mem_singleton] at h
          subst h
          exact hops p (by simp)
      obtain ⟨hT, hlt2, hL2, hmap, hlen⟩ := ih (es ++ [(cur, p)]) T cur o hlt' hL'
        (fun q hq => hops q (by simp [hq])) (Or.inr ⟨hcl, ho⟩) (Or.inr hTne)
      refine ⟨?_, hlt2, hL2, ?_, ?_⟩
      · show (specRun rest (es ++ [(cur, p)], T, cur)).2.1 = T ++ tsValues (WOp.ch p :: rest)
        rw [hT]
        simp [tsValues, List.filterMap_cons]
      · simp only [specRun]
        rw [hmap, List.map_append, List.append_assoc]
        refine congrArg₂ (fun a b => a ++ b) rfl ?_
        simp only [expectedChanges, List.map_singleton, List.singleton_append]
        refine List.cons_eq_cons.mpr ⟨?_, rfl⟩
        rw [hT, List.getD_append _ _ _ _ hcl, ho]
        rfl
      · simp only [specRun]
        rw [hlen]
        simp [chPayloads, List.filterMap_cons]
        omega

/-- C2: for every declared signal and every trace of `push_timesteps` and
filled `push_get` appends (each payload filling the storage's packed width,
the trace starting with a timestep, at most `2^32` timesteps, and the block
size fitting the 8-byte `delta_next` field), iterating the signal's changes
succeeds and yields exactly the pushed records, in push order, each with its
packed bytes and the timestep value that was current when it was pushed —
one record per `push_get`, regardless of how many blocks they span. -/
theorem C2_confirmed (PB width : Nat) (ops : List WOp)
    (hw : ∀ p, WOp.ch p ∈ ops → p.length = (width + PB - 1) / PB)
    (hlead : tsLeads ops = true)
    (htsb : (tsValues ops).length ≤ 2 ^ 32)
    (hsz : 16 + (4 + (width + PB - 1) / PB) * CHANGES_PER_BLOCK < 256 ^ 8) :
    ∃ st, runTrace PB width ops = some st ∧
      iter_changes st 0 PB = some (expectedChanges ops none) ∧
      (expectedChanges ops none).length = (chPayloads ops).length := by
  obtain ⟨hT, hlt2, hL2, hmap, hlen⟩ := specRun_spec
    (fun p => p.length = (width + PB - 1) / PB) ops [] [] 0 none
    (by simp) (by simp) hw (Or.inl ⟨rfl, rfl⟩) (Or.inl hlead)
  obtain ⟨es, hes⟩ : ∃ es, (specRun ops ([], [], 0)).1 = es := ⟨_, rfl⟩
  obtain ⟨T, hTs⟩ : ∃ T, (specRun ops ([], [], 0)).2.1 = T := ⟨_, rfl⟩
  obtain ⟨cur, hcu⟩ : ∃ c, (specRun ops ([], [], 0)).2.2 = c := ⟨_, rfl⟩
  rw [hes, hTs] at hmap hlt2
  rw [hes] at hL2 hlen
  rw [hTs, List.nil_append] at hT
  simp only [List.map_nil, List.nil_append] at hmap
  have hrec : ∀ e ∈ es, (recBytes e).length = 4 + (width + PB - 1) / PB := by
    intro e he
    have hp := hL2 e he
    simp [recBytes, toLE_length, hp]
  have hTb : T.length ≤ 2 ^ 32 := by
    rw [hT]
    exact htsb
  refine ⟨absState PB width es T cur, ?_, ?_, ?_⟩
  · rw [runTrace, add_storage_absState,
      runOps_absState PB width ops [] [] 0 hw (by simp), hes, hTs, hcu]
  · simp only [iter_changes, absState, List.getD_cons_zero]
    rw [iterOffsets_storeBytes hsz es.length es rfl hrec]
    simp only [Option.some_bind]
    rw [mapM_map_eq_of_some (recOff (4 + (width + PB - 1) / PB))
      (fun o => get_change (storeBytes (4 + (width + PB - 1) / PB) es) T o width PB)
      (fun j => (T.getD (es.getD j (0, [])).1 0, (es.getD j (0, [])).2))
      (List.range es.length)
      (fun j hj => by
        rw [List.mem_range] at hj
        exact get_change_storeBytes es T hrec j hj
          (hlt2 (es.getD j (0, [])) (by
            rw [List.getD_eq_getElem _ _ hj]
            exact List.getElem_mem hj)) hTb)]
    refine congrArg some ?_
    rw [range_map_getD (fun e => (T.getD e.1 0, e.2)) es, hmap]
  · have h1 := congrArg List.length hmap
    rw [List.length_map] at h1
    simp only [List.length_nil, Nat.zero_add] at hlen
    omega

/-- Witness: a concrete five-step trace on a width-1 two-state signal —
two timesteps and three filled changes — round-trips through the block
list. -/
theorem C2_witness :
    ∃ st, runTrace 8 1 [WOp.ts 7, WOp.ch [1], WOp.ch [0], WOp.ts 9, WOp.ch [1]] = some st ∧
      iter_changes st 0 8 =
        some (expectedChanges [WOp.ts 7, WOp.ch [1], WOp.ch [0], WOp.ts 9, WOp.ch [1]]
          none) ∧
      (expectedChanges [WOp.ts 7, WOp.ch [1], WOp.ch [0], WOp.ts 9, WOp.ch [1]]
          none).length =
        (chPayloads [WOp.ts 7, WOp.ch [1], WOp.ch [0], WOp.ts 9, WOp.ch [1]]).length :=
  C2_confirmed 8 1 [WOp.ts 7, WOp.ch [1], WOp.ch [0], WOp.ts 9, WOp.ch [1]]
    (by
      intro p hp
      simp only [List.mem_cons, List.not_mem_nil, or_false] at hp
      rcases hp with h | h | h | h | h <;> simp_all)
    (by rfl) (by decide) (by decide)

end LChangeTheorems
